import Mathlib

/-!
The string utility `samchon::library::StringUtil`.

A shallow embedding of `src/cpp/samchon/library/StringUtil.hpp`.

* A `std::string` is a list of characters (`Str`).
* `size_t` and `unsigned long long` are 64 bits wide: a conversion to them is
  a natural number reduced modulo `2 ^ 64`.
* A `double` is read as an exact rational number; `pow`, `round`, `abs` and
  `log10` are the exact functions. The program computes in IEEE-754 `double`,
  so `numberFormat` stands for the program only where that arithmetic is
  exact. No statement on the digits it writes is made for all values; the
  statements on `percentFormat`, the colour formats and the text of a travel
  hold for whatever text `numberFormat` returns.
* The header `samchon/WeakString.hpp` (find, replaceAll, split, between,
  betweens, trim, finds, substring) and `samchon/library/Math.hpp` (minimum)
  are not part of the sources at hand; the operations used from them are
  modelled from the specification.
-/

namespace Samchon

/-- A `std::string`. -/
abbrev Str := List Char

/-- The opening brace of a placeholder. -/
def LB : Char := Char.ofNat 123

/-- The closing brace of a placeholder. -/
def RB : Char := Char.ofNat 125

/-- The single quote of an SQL literal. -/
def QUOTE : Char := Char.ofNat 39

def INT_MIN : Int := -2147483648

def INT_MAX : Int := 2147483647

/-- The number of values of a 64-bit `size_t` / `unsigned long long`. -/
def SIZE_MOD : Nat := 2 ^ 64

/-- The conversion `(size_t)` of an integer: reduction modulo `2 ^ 64`. -/
def size_t (n : Int) : Nat := (n % (SIZE_MOD : Int)).toNat

/-- `std::to_string` of an unsigned integer: its decimal digits. -/
def natToString (n : Nat) : Str := Nat.toDigits 10 n

/-- `std::to_string` of a signed integer. -/
def to_string (n : Int) : Str :=
  if n < 0 then '-' :: natToString n.natAbs else natToString n.natAbs

/-- The C function `isspace` in the "C" locale. -/
def isspace (c : Char) : Bool :=
  c = ' ' || c = '\t' || c = '\n' || c = Char.ofNat 11 || c = Char.ofNat 12 || c = '\r'

/-- The value of a run of decimal digits, most significant first. -/
def digitsVal (ds : Str) : Nat :=
  ds.foldl (fun a c => 10 * a + (c.toNat - 48)) 0

/-- `std::stoi`: blanks, an optional sign, then at least one decimal digit;
what follows the digits is ignored. `none` stands for the exception thrown
(`invalid_argument` without a digit, `out_of_range` outside `int`). -/
def stoi (str : Str) : Option Int :=
  let s1 := str.dropWhile isspace
  let neg := s1.head? = some '-'
  let s2 := if s1.head? = some '-' ∨ s1.head? = some '+' then s1.tail else s1
  let ds := s2.takeWhile Char.isDigit
  if ds = [] then none
  else
    let v : Int := if neg then -(digitsVal ds : Int) else (digitsVal ds : Int)
    if INT_MIN ≤ v ∧ v ≤ INT_MAX then some v else none

/-! WeakString and Math (modelled) -/

namespace WeakString

/-- Modelled from the spec: `WeakString::find` of `samchon/WeakString.hpp`,
which is not among the sources. The position of the first occurrence of
`delim` in `str`, `none` for `npos`. -/
def find : Str → Str → Option Nat
  | [], delim => if delim = [] then some 0 else none
  | c :: cs, delim =>
    if delim.isPrefixOf (c :: cs) then some 0 else (find cs delim).map (· + 1)

/-- The scan of `replaceAll`: `skip` counts the characters of a matched
occurrence still to be passed over. -/
def replaceAllAux (before after : Str) : Nat → Str → Str
  | _, [] => []
  | skip + 1, _ :: cs => replaceAllAux before after skip cs
  | 0, c :: cs =>
    if before ≠ [] ∧ before.isPrefixOf (c :: cs) then
      after ++ replaceAllAux before after (before.length - 1) cs
    else c :: replaceAllAux before after 0 cs

/-- Modelled from the spec: `WeakString::replaceAll` of
`samchon/WeakString.hpp`, which is not among the sources. Every occurrence of
`before`, found left to right without overlap, is replaced by `after`. -/
def replaceAll (str before after : Str) : Str :=
  replaceAllAux before after 0 str

/-- Modelled from the spec: `WeakString::replaceAll` for a list of pairs, of
`samchon/WeakString.hpp`, which is not among the sources. The pairs are
applied in order, each pass operating on the result of the previous one. -/
def replaceAllPairs (str : Str) (pairs : List (Str × Str)) : Str :=
  pairs.foldl (fun res pair => replaceAll res pair.1 pair.2) str

/-- The scan of `split`: `acc` is the current segment, reversed. -/
def splitAux (delim : Str) : Nat → Str → Str → List Str
  | _, acc, [] => [acc.reverse]
  | skip + 1, acc, _ :: cs => splitAux delim skip acc cs
  | 0, acc, c :: cs =>
    if delim ≠ [] ∧ delim.isPrefixOf (c :: cs) then
      acc.reverse :: splitAux delim (delim.length - 1) [] cs
    else splitAux delim 0 (c :: acc) cs

/-- Modelled from the spec: `WeakString::split` of `samchon/WeakString.hpp`,
which is not among the sources. The text is cut at every occurrence of
`delim`; empty segments are kept. -/
def split (str delim : Str) : List Str :=
  splitAux delim 0 [] str

/-- The repetition of `between` over the text still to be read: the text
between the first `start` and the next `end` after it, then the same on what
follows that `end`. -/
def betweensLoop (start stop : Str) : Nat → Str → List Str
  | 0, _ => []
  | fuel + 1, str =>
    match find str start with
    | none => []
    | some i =>
      let rest := str.drop (i + start.length)
      match find rest stop with
      | none => []
      | some j => rest.take j :: betweensLoop start stop fuel (rest.drop (j + stop.length))

/-- Modelled from the spec: `WeakString::betweens` of
`samchon/WeakString.hpp`, which is not among the sources. All matches of
`between` from left to right, without overlap. With the start marker only:
the split by it without its final segment; with the end marker only: the split
by it without its leading segment; with no marker the one-element sequence of
the text. (The comment of `StringUtil::betweens`, lines 581-589 of
`StringUtil.hpp`, words the two one-marker cases the other way round; the code
that decides between the two is not among the sources.) -/
def betweens (str start stop : Str) : List Str :=
  if start = [] ∧ stop = [] then [str]
  else if stop = [] then (split str start).dropLast
  else if start = [] then (split str stop).drop 1
  else betweensLoop start stop (str.length + 1) str

/-- The index `std::string::npos`. -/
def npos : Nat := SIZE_MOD - 1

/-- Modelled from the spec: `WeakString::find` with a start index. The
position of the first occurrence of `delim` at or after `startIndex`, `none`
for `npos`. -/
def findFrom (str delim : Str) (startIndex : Nat) : Option Nat :=
  if startIndex ≤ str.length then (find (str.drop startIndex) delim).map (· + startIndex)
  else none

/-- The index a search returns: the position, or `npos`. -/
def findPos (str delim : Str) (startIndex : Nat) : Nat :=
  (findFrom str delim startIndex).getD npos

/-- Modelled from the spec: `WeakString::substring` of
`samchon/WeakString.hpp`, which is not among the sources. The half-open range
from `startIndex` to `endIndex`; the two are swapped when the first is the
greater, an end beyond the text is the end of the text, and a start beyond the
text gives the empty text. -/
def substring (str : Str) (startIndex endIndex : Nat) : Str :=
  let first := if startIndex > endIndex then endIndex else startIndex
  let last := if startIndex > endIndex then startIndex else endIndex
  (str.take (min last str.length)).drop first

/-- Modelled from the spec: `WeakString::between` of
`samchon/WeakString.hpp`, which is not among the sources. The text strictly
inside the first occurrence of `start` and the next occurrence of `stop` after
it; without `start` the extraction starts at position 0, without `stop` it
runs to the end of the text, without both the result is the text itself. A
marker that is not found gives the empty text. -/
def between (str start stop : Str) : Str :=
  if start = [] ∧ stop = [] then str
  else if start = [] then
    match find str stop with
    | none => []
    | some j => str.take j
  else
    match find str start with
    | none => []
    | some i =>
      let rest := str.drop (i + start.length)
      if stop = [] then rest
      else
        match find rest stop with
        | none => []
        | some j => rest.take j

/-- A character of the delimiter set: a character of one of the given
delimiters. -/
def isDelim (delims : List Str) (c : Char) : Bool :=
  delims.any (fun d => d.contains c)

/-- Modelled from the spec: `WeakString::ltrim` of `samchon/WeakString.hpp`,
which is not among the sources. The leading run of characters of the delimiter
set is removed. -/
def ltrim (str : Str) (delims : List Str) : Str :=
  str.dropWhile (isDelim delims)

/-- Modelled from the spec: `WeakString::rtrim` of `samchon/WeakString.hpp`,
which is not among the sources. The trailing run of characters of the
delimiter set is removed. -/
def rtrim (str : Str) (delims : List Str) : Str :=
  (str.reverse.dropWhile (isDelim delims)).reverse

/-- Modelled from the spec: `WeakString::trim` of `samchon/WeakString.hpp`,
which is not among the sources. The leading and the trailing run of characters
of the delimiter set are removed. -/
def trim (str : Str) (delims : List Str) : Str :=
  rtrim (ltrim str delims) delims

/-- One step of `finds`: the delimiter `d` replaces the best match so far when
it occurs at a smaller position. -/
def findsStep (str : Str) (startIndex : Nat) (best : Option (Nat × Str)) (d : Str) :
    Option (Nat × Str) :=
  match findFrom str d startIndex, best with
  | none, _ => best
  | some p, none => some (p, d)
  | some p, some (q, e) => if p < q then some (p, d) else some (q, e)

/-- Modelled from the spec: `WeakString::finds` of `samchon/WeakString.hpp`,
which is not among the sources. Among the first occurrences of the delimiters
at or after `startIndex`, the one at the smallest position, paired with its
delimiter; `npos` paired with the empty text when no delimiter occurs. -/
def finds (str : Str) (delims : List Str) (startIndex : Nat) : Nat × Str :=
  (delims.foldl (findsStep str startIndex) none).getD (npos, [])

end WeakString

namespace Math

/-- Modelled from the spec: `Math::minimum` of `samchon/library/Math.hpp`,
which is not among the sources. The least element; an empty container has
none, and the call has no result: the failure of the spec when no placeholder
is left for a value. -/
def minimum : List Int → Option Int
  | [] => none
  | x :: xs => some (xs.foldl min x)

end Math

/-! StringUtil -/

/-- The argument types `substitute` and `substituteSQL` are called with. -/
inductive Value where
  /-- An `int`. -/
  | int (n : Int)
  /-- A `bool`. -/
  | bool (b : Bool)
  /-- A `char`. -/
  | char (c : Char)
  /-- A `std::string`. -/
  | str (s : Str)
  /-- A `WeakString`. -/
  | wstr (s : Str)
  /-- A `const char*`. -/
  | cstr (s : Str)
  deriving DecidableEq

namespace StringUtil

/-- `StringUtil::betweens` (lines 592-605). -/
def betweens (str start stop : Str) : List Str :=
  WeakString.betweens str start stop

/-- `StringUtil::replaceAll` (lines 641-648). -/
def replaceAll (str before after : Str) : Str :=
  WeakString.replaceAll str before after

/-- `StringUtil::toString` (lines 127-143): `std::to_string` for the
arithmetic types (a `bool` and a `char` are promoted to `int`), the text
itself for the text types. A `char` stands for its code, as it does below 128;
above that the promoted value depends on the sign of `char`, which is not
modelled, and the floating-point types are not among the values. -/
def toString : Value → Str
  | .int n => to_string n
  | .bool b => to_string (if b then 1 else 0)
  | .char c => to_string (c.toNat : Int)
  | .str s => s
  | .wstr s => s
  | .cstr s => s

/-- `StringUtil::toSQL` for a `WeakString` (lines 165-176). -/
def toSQLText (wstr : Str) : Str :=
  if wstr = [] then "NULL".toList
  else if (WeakString.find wstr [QUOTE]).isSome then
    QUOTE :: WeakString.replaceAll wstr [QUOTE] [QUOTE, QUOTE] ++ [QUOTE]
  else QUOTE :: wstr ++ [QUOTE]

/-- `StringUtil::toSQL` (lines 145-180). -/
def toSQL : Value → Str
  | .int n => if n = INT_MIN then "NULL".toList else to_string n
  | .bool b => to_string (if b then 1 else 0)
  | .char c => toSQLText [c]
  | .str s => toSQLText s
  | .wstr s => toSQLText s
  | .cstr s => toSQLText s

/-- `StringUtil::isNumeric` (lines 198-215). -/
def isNumeric (str : Str) : Bool := (stoi str).isSome

/-- The numeric tokens of `_substitute` and `_substituteSQL` (lines 94-99 and
110-115): the bracketed texts that `isNumeric` accepts, read by `stoi`. -/
def numericTokens (format : Str) : List Int :=
  (betweens format [LB] [RB]).filterMap
    (fun it => if isNumeric it then stoi it else none)

/-- `StringUtil::_substitute` (lines 92-106). `none` when there is no numeric
token: `Math::minimum` has no result there, and no text is returned. -/
def _substitute (format : Str) (value : Value) : Option Str :=
  match Math.minimum (numericTokens format) with
  | none => none
  | some m =>
    let index := size_t m
    let rendered := toString value
    some (replaceAll format (LB :: natToString index ++ [RB]) rendered)

/-- `StringUtil::_substituteSQL` (lines 108-122). -/
def _substituteSQL (format : Str) (value : Value) : Option Str :=
  match Math.minimum (numericTokens format) with
  | none => none
  | some m =>
    let index := size_t m
    let rendered := toSQL value
    some (replaceAll format (LB :: natToString index ++ [RB]) rendered)

/-- `StringUtil::substitute` (lines 53-64): the first value, then the
remaining ones on the result. -/
def substitute (format : Str) : Value → List Value → Option Str
  | val, [] => _substitute format val
  | val, a :: args =>
    match _substitute format val with
    | none => none
    | some res => substitute res a args

/-- `StringUtil::substituteSQL` (lines 79-89). -/
def substituteSQL (format : Str) : Value → List Value → Option Str
  | value, [] => _substituteSQL format value
  | value, a :: args =>
    match _substituteSQL format value with
    | none => none
    | some res => substituteSQL res a args

/-! Number format -/

/-- The function `pow(10, precision)`, read exactly. -/
def pow10 (precision : Int) : ℚ := (10 : ℚ) ^ precision

/-- The C function `round`: the nearest integer, halves away from zero. -/
def round (x : ℚ) : ℚ :=
  if 0 ≤ x then ((⌊x + 1 / 2⌋ : Int) : ℚ) else -((⌊-x + 1 / 2⌋ : Int) : ℚ)

/-- The conversion `(unsigned long long)` of a number that is not negative:
its integer part, reduced modulo `2 ^ 64`. (C++ leaves the conversion of a
value of `2 ^ 64` or more undefined; the reduction is a placeholder there, and
no statement is made on such a value.) -/
def toULL (x : ℚ) : Nat := ⌊x⌋.toNat % SIZE_MOD

/-- The conversion `(size_t)log10(x)` of a whole number `x ≥ 1`, read
exactly: one less than the count of its decimal digits. The program takes the
logarithm in `double`, which is `15.0` for `999999999999998` and
`999999999999999` already: just below a power of ten, from `10 ^ 15` on, the
value of the program is one more than the exact one. (For `x = 0` the C
function yields `-inf`, whose conversion is not defined; the value here is
`0`.) -/
def log10 (x : Nat) : Nat := (natToString x).length - 1

/-- One round of the loop of `numberFormat` (lines 262-276). -/
def cipherStep (natural cipher_count : Nat) (str : Str) (i : Nat) : Str :=
  let cipher := natural % size_t ((10 : Int) ^ (i + 1))
  let cipher := cipher / 10 ^ i
  if i = cipher_count ∧ cipher = 0 then str
  else
    let str := if i > 0 ∧ i % 3 = 0 then ',' :: str else str
    natToString cipher ++ str

/-- The natural-number block of `numberFormat` (lines 254-277). -/
def naturalString (natural : Nat) : Str :=
  if natural = 0 then ['0']
  else
    let cipher_count := log10 natural + 1
    (List.range (cipher_count + 1)).foldl (cipherStep natural cipher_count) []

/-- `StringUtil::numberFormat` (lines 241-292), with the arithmetic of
`double` read exactly. The program rounds every product and quotient to a
`double` and takes `log10` in `double`, so its text differs from this one on
some values: the `double` nearest `0.015` is written `0.02` at precision 2,
and `999999999999999` is written with a leading group `0`. -/
def numberFormat (val : ℚ) (precision : Int) : Str :=
  let val := round (val * pow10 precision)
  let val := val / pow10 precision
  let is_negative := decide (val < 0)
  let natural := toULL |val|
  let fraction := |val| - (toULL |val| : ℚ)
  let str := naturalString natural
  let str := if is_negative then '-' :: str else str
  if precision > 0 ∧ fraction ≠ 0 then
    let fraction := toULL (round (fraction * pow10 precision))
    let zeros := size_t (precision - (log10 fraction : Int) - 1)
    str ++ '.' :: (List.replicate zeros '0' ++ natToString fraction)
  else str

/-- `StringUtil::percentFormat` (lines 303-308). -/
def percentFormat (val : ℚ) (precision : Int) : Str :=
  if val = (INT_MIN : ℚ) then []
  else numberFormat (val * 100) precision ++ ['%']

/-! Colour formats -/

/-- `StringUtil::colorNumberFormat` (lines 325-339). -/
def colorNumberFormat (value : ℚ) (precision : Int) (delimiter : ℚ) : Option Str :=
  let color : Str :=
    if value > delimiter then "red".toList
    else if value = delimiter then "black".toList
    else "blue".toList
  substitute "<font color='\x7b1\x7d'>\x7b2\x7d</font>".toList
    (.str color) [.str (numberFormat value precision)]

/-- `StringUtil::colorPercentFormat` (lines 349-363). -/
def colorPercentFormat (value : ℚ) (precision : Int) (delimiter : ℚ) : Option Str :=
  let color : Str :=
    if value > delimiter then "red".toList
    else if value = delimiter then "black".toList
    else "blue".toList
  substitute "<font color='\x7b1\x7d'>\x7b2\x7d</font>".toList
    (.str color) [.str (percentFormat value precision)]

/-! Trim and extractors -/

/-- `StringUtil::trim` (lines 376-379). -/
def trim (val : Str) (delims : List Str) : Str :=
  WeakString.trim val delims

/-- `StringUtil::ltrim` (lines 388-391). -/
def ltrim (val : Str) (delims : List Str) : Str :=
  WeakString.ltrim val delims

/-- `StringUtil::rtrim` (lines 400-403). -/
def rtrim (val : Str) (delims : List Str) : Str :=
  WeakString.rtrim val delims

/-- `StringUtil::finds` (lines 449-455). -/
def finds (str : Str) (delims : List Str) (startIndex : Nat) : Nat × Str :=
  WeakString.finds str delims startIndex

/-- `StringUtil::substring` (lines 495-499). -/
def substring (str : Str) (startIndex endIndex : Nat) : Str :=
  WeakString.substring str startIndex endIndex

/-- `StringUtil::between` (lines 520-524). -/
def between (str start stop : Str) : Str :=
  WeakString.between str start stop

/-- `StringUtil::split` (lines 563-572). -/
def split (str delim : Str) : List Str :=
  WeakString.split str delim

/-- `StringUtil::addTab` (lines 534-552): `n` tab characters in front of
every line of `str`; the lines are those of `split` by the newline, and a
newline follows every line but the last. `n` is the value of a `size_t`. -/
def addTab (str : Str) (n : Nat) : Str :=
  let lines := split str "\n".toList
  let tab := (List.range n).foldl (fun tab _ => tab ++ "\t".toList) []
  (List.range lines.length).foldl
    (fun val i =>
      val ++ (tab ++ lines.getD i []
        ++ (if i = size_t ((lines.length : Int) - 1) then [] else "\n".toList)))
    []

/-- `StringUtil::replaceAll` for a list of pairs (lines 657-661). -/
def replaceAllPairs (str : Str) (pairs : List (Str × Str)) : Str :=
  WeakString.replaceAllPairs str pairs

/-- `StringUtil::removeHTMLSpaces` (lines 668-677). -/
def removeHTMLSpaces (str : Str) : Str :=
  replaceAllPairs str
    [("&nbsp;".toList, " ".toList), ("\t".toList, " ".toList), ("  ".toList, " ".toList)]

end StringUtil

/-! The travel of the example `tsp` -/

namespace Tsp

/-- The class `Travel` (`Travel.hpp`): the array of its points and the member
`distance`, which is `INT_MIN` until the distance is calculated. The class
`GeometryPoint` is not among the sources: its type is a parameter. -/
structure Travel (Point : Type) where
  /-- The points, in the order of the array. -/
  points : List Point
  /-- The member `distance`. -/
  distance : ℚ

/-- `Travel::calcDistance` (lines 98-109); `pointDistance` is
`GeometryPoint::calcDistance`. -/
def Travel.calcDistance {Point : Type} (pointDistance : Point → Point → ℚ)
    (t : Travel Point) : ℚ :=
  if t.distance ≠ (INT_MIN : ℚ) then t.distance
  else
    (t.points.zip t.points.tail).foldl
      (fun distance pq => distance + pointDistance pq.1 pq.2) 0

/-- `Travel::toString` (lines 157-167); `pointToString` is
`GeometryPoint::toString`. -/
def Travel.toString {Point : Type} (pointDistance : Point → Point → ℚ)
    (pointToString : Point → Str) (t : Travel Point) : Str :=
  let str := "Distance: ".toList
    ++ StringUtil.numberFormat (t.calcDistance pointDistance) 2 ++ " km\n".toList
    ++ "uid\tlongitude\tlatitude\n".toList
  t.points.foldl (fun str p => str ++ (pointToString p ++ "\n".toList)) str

end Tsp

/-! Specification of the SQL text literal -/

/-- The text `s` with every single quote replaced by two single quotes. -/
def sqlEscape (s : Str) : Str :=
  (s.map (fun c => if c = QUOTE then [QUOTE, QUOTE] else [c])).flatten

/-! Specification of the colour formats -/

/-- The colour of a value against a delimiter. -/
def colorOf (value delimiter : ℚ) : Str :=
  if value > delimiter then "red".toList
  else if value = delimiter then "black".toList
  else "blue".toList

/-! Specification of the extractors -/

/-- The scan that counts the occurrences of `delim`, left to right and
without overlap; `skip` counts the characters of a matched occurrence still to
be passed over. -/
def countOccAux (delim : Str) : Nat → Str → Nat
  | _, [] => 0
  | skip + 1, _ :: cs => countOccAux delim skip cs
  | 0, c :: cs =>
    if delim ≠ [] ∧ delim.isPrefixOf (c :: cs) then
      1 + countOccAux delim (delim.length - 1) cs
    else countOccAux delim 0 cs

/-- The number of occurrences of `delim` in `str`, found left to right
without overlap. -/
def countOcc (str delim : Str) : Nat := countOccAux delim 0 str

/-- The first line of a text: what stands before the first newline. -/
def firstLine (s : Str) : Str := s.takeWhile (fun c => c ≠ '\n')

/-- The scan of the runs of single quotes: `k` is the length of the run that
ends at the current position. -/
def quoteRunsAux : Nat → Str → List Nat
  | k, [] => if k = 0 then [] else [k]
  | k, c :: cs =>
    if c = QUOTE then quoteRunsAux (k + 1) cs
    else (if k = 0 then [] else [k]) ++ quoteRunsAux 0 cs

/-- The lengths of the maximal runs of single quotes of a text, from left to
right. -/
def quoteRuns (s : Str) : List Nat := quoteRunsAux 0 s

/-- The text strictly inside the first and the last character. -/
def sqlInner (s : Str) : Str := s.tail.dropLast

/-! Specification of the HTML spaces -/

/-- The first pass in the words of the specification: every `&nbsp;`, read
from left to right, becomes one space; every other character is kept. -/
def nbspToSpace : Str → Str
  | '&' :: 'n' :: 'b' :: 's' :: 'p' :: ';' :: rest => ' ' :: nbspToSpace rest
  | c :: rest => c :: nbspToSpace rest
  | [] => []

/-- The second pass: every tab character becomes one space. -/
def tabToSpace (s : Str) : Str := s.map (fun c => if c = '\t' then ' ' else c)

/-- The third pass: every two adjacent spaces, read from left to right,
become one space; every other character is kept. -/
def squeezeSpaces : Str → Str
  | ' ' :: ' ' :: rest => ' ' :: squeezeSpaces rest
  | c :: rest => c :: squeezeSpaces rest
  | [] => []

/-! Templates, for the statements about `substitute` -/

/-- A piece of a template: literal text, or a placeholder with its index. -/
inductive Piece where
  /-- Literal text. -/
  | lit (t : Str)
  /-- The placeholder of index `n`, written with the canonical decimal digits of `n`. -/
  | tok (n : Nat)
  deriving DecidableEq

/-- The text of a piece. -/
def Piece.text : Piece → Str
  | .lit t => t
  | .tok n => LB :: natToString n ++ [RB]

/-- The template a list of pieces stands for. -/
def render (ps : List Piece) : Str := (ps.map Piece.text).flatten

/-- Literal text holds no brace, and an index fits a 32-bit `int`: braces
occur in the template only as placeholders. -/
def Piece.WellFormed : Piece → Prop
  | .lit t => LB ∉ t ∧ RB ∉ t
  | .tok n => (n : Int) ≤ INT_MAX

instance Piece.decidableWellFormed : (p : Piece) → Decidable p.WellFormed
  | .lit t => inferInstanceAs (Decidable (LB ∉ t ∧ RB ∉ t))
  | .tok n => inferInstanceAs (Decidable ((n : Int) ≤ INT_MAX))

/-- The indices of the placeholders of a template, in the order they occur. -/
def indices (ps : List Piece) : List Nat :=
  ps.filterMap (fun p => match p with
    | .tok n => some n
    | .lit _ => none)

/-- The placeholder of index `m` replaced by the text `r`; every other piece
is kept. -/
def Piece.fill (m : Nat) (r : Str) : Piece → Piece
  | .tok n => if n = m then .lit r else .tok n
  | .lit t => .lit t

/-- The number of distinct indices of the template that are smaller than `n`. -/
def rank (ps : List Piece) (n : Nat) : Nat :=
  ((indices ps).filter (fun i => i < n)).dedup.length

/-- The placeholder whose index is the `j`-th smallest of the template (from
`0`) replaced by the `j`-th text of `rs`, when there is one. -/
def Piece.fillAll (ps : List Piece) (rs : List Str) : Piece → Piece
  | .tok n =>
    match rs.get? (rank ps n) with
    | some r => .lit r
    | none => .tok n
  | .lit t => .lit t

end Samchon

namespace Samchon
open WeakString StringUtil

/-! Decimal digits -/

theorem toDigitsCore_append (fuel : Nat) : ∀ (n : Nat) (acc : Str),
    Nat.toDigitsCore 10 fuel n acc = Nat.toDigitsCore 10 fuel n [] ++ acc := by
  induction fuel with
  | zero => intro n acc; simp [Nat.toDigitsCore]
  | succ f ih =>
    intro n acc
    simp only [Nat.toDigitsCore]
    split
    · simp
    · rw [ih (n / 10) (_ :: acc), ih (n / 10) [_]]
      simp

theorem toDigitsCore_fuel (f1 : Nat) : ∀ (f2 n : Nat), n < f1 → n < f2 →
    Nat.toDigitsCore 10 f1 n [] = Nat.toDigitsCore 10 f2 n [] := by
  induction f1 with
  | zero => intro f2 n h; omega
  | succ f ih =>
    intro f2 n h1 h2
    cases f2 with
    | zero => omega
    | succ g =>
      simp only [Nat.toDigitsCore]
      split
      · rfl
      · rename_i hne
        have hpos : 0 < n / 10 := Nat.pos_of_ne_zero hne
        have hlt : n / 10 < n := Nat.div_lt_self (by omega) (by norm_num)
        rw [toDigitsCore_append f, toDigitsCore_append g, ih g (n / 10) (by omega) (by omega)]

theorem natToString_lt (n : Nat) (h : n < 10) : natToString n = [Nat.digitChar n] := by
  have h0 : n / 10 = 0 := by omega
  have h1 : n % 10 = n := by omega
  simp [natToString, Nat.toDigits, Nat.toDigitsCore, h0, h1]

theorem natToString_ge (n : Nat) (h : 10 ≤ n) :
    natToString n = natToString (n / 10) ++ [Nat.digitChar (n % 10)] := by
  have h0 : n / 10 ≠ 0 := by omega
  have hlt : n / 10 < n := Nat.div_lt_self (by omega) (by norm_num)
  have e1 : natToString n = Nat.toDigitsCore 10 (n + 1) n [] := rfl
  have e2 : natToString (n / 10) = Nat.toDigitsCore 10 (n / 10 + 1) (n / 10) [] := rfl
  rw [e1, e2, Nat.toDigitsCore]
  simp only [h0, if_false]
  rw [toDigitsCore_append, toDigitsCore_fuel n (n / 10 + 1) (n / 10) hlt (by omega)]

theorem digitChar_isDigit (d : Nat) (h : d < 10) : (Nat.digitChar d).isDigit = true := by
  interval_cases d <;> rfl

theorem digitChar_toNat (d : Nat) (h : d < 10) : (Nat.digitChar d).toNat - 48 = d := by
  interval_cases d <;> rfl

theorem natToString_ne_nil (n : Nat) : natToString n ≠ [] := by
  by_cases h : n < 10
  · simp [natToString_lt n h]
  · simp [natToString_ge n (by omega)]

theorem natToString_isDigit (n : Nat) : ∀ c ∈ natToString n, c.isDigit = true := by
  induction n using Nat.strong_induction_on with
  | _ n ih =>
    by_cases h : n < 10
    · intro c hc
      rw [natToString_lt n h] at hc
      simp at hc
      rw [hc]; exact digitChar_isDigit n h
    · intro c hc
      rw [natToString_ge n (by omega)] at hc
      rcases List.mem_append.1 hc with hc | hc
      · exact ih (n / 10) (Nat.div_lt_self (by omega) (by norm_num)) c hc
      · simp at hc
        rw [hc]; exact digitChar_isDigit _ (Nat.mod_lt _ (by norm_num))

theorem digitsVal_append_single (ds : Str) (c : Char) :
    digitsVal (ds ++ [c]) = 10 * digitsVal ds + (c.toNat - 48) := by
  simp [digitsVal, List.foldl_append]

theorem digitsVal_natToString (n : Nat) : digitsVal (natToString n) = n := by
  induction n using Nat.strong_induction_on with
  | _ n ih =>
    by_cases h : n < 10
    · rw [natToString_lt n h]
      simp [digitsVal, digitChar_toNat n h]
    · rw [natToString_ge n (by omega), digitsVal_append_single,
        ih (n / 10) (Nat.div_lt_self (by omega) (by norm_num)),
        digitChar_toNat _ (Nat.mod_lt _ (by norm_num))]
      omega

theorem natToString_injective (m n : Nat) (h : natToString m = natToString n) : m = n := by
  rw [← digitsVal_natToString m, ← digitsVal_natToString n, h]

/-! Searching and replacing -/

theorem isPrefixOf_self_append (b rest : Str) : b.isPrefixOf (b ++ rest) = true := by
  induction b with
  | nil => simp [List.isPrefixOf]
  | cons c b ih => simp [List.isPrefixOf, ih]

theorem replaceAllAux_skip (b a : Str) : ∀ (xs rest : Str),
    replaceAllAux b a xs.length (xs ++ rest) = replaceAllAux b a 0 rest := by
  intro xs
  induction xs with
  | nil => intro rest; simp
  | cons x xs ih => intro rest; simp [replaceAllAux, ih]

theorem replaceAllAux_match (b a rest : Str) (hb : b ≠ []) :
    replaceAllAux b a 0 (b ++ rest) = a ++ replaceAllAux b a 0 rest := by
  cases b with
  | nil => exact absurd rfl hb
  | cons c b =>
    have h := isPrefixOf_self_append (c :: b) rest
    simp only [List.cons_append] at h ⊢
    rw [replaceAllAux]
    simp only [h, ne_eq, not_false_eq_true, and_self, if_true, List.length_cons,
      Nat.add_sub_cancel, reduceCtorEq]
    rw [replaceAllAux_skip]

theorem replaceAllAux_pass (c : Char) (b a : Str) : ∀ (t rest : Str), c ∉ t →
    replaceAllAux (c :: b) a 0 (t ++ rest) = t ++ replaceAllAux (c :: b) a 0 rest := by
  intro t
  induction t with
  | nil => intro rest _; simp
  | cons x t ih =>
    intro rest hx
    simp only [List.mem_cons, not_or] at hx
    have hne : ¬ (c = x) := hx.1
    simp only [List.cons_append]
    rw [replaceAllAux]
    simp [List.isPrefixOf, hne, ih rest hx.2]

theorem find_single_head (c : Char) (rest : Str) : find (c :: rest) [c] = some 0 := by
  simp [find, List.isPrefixOf]

theorem find_single_pass (c : Char) : ∀ (t rest : Str), c ∉ t →
    find (t ++ rest) [c] = (find rest [c]).map (· + t.length) := by
  intro t
  induction t with
  | nil => intro rest _; simp
  | cons x t ih =>
    intro rest hx
    simp only [List.mem_cons, not_or] at hx
    have hne : ¬ (c = x) := hx.1
    simp only [List.cons_append]
    rw [find]
    have hp : List.isPrefixOf [c] (x :: (t ++ rest)) = false := by
      simp [List.isPrefixOf, hne]
    rw [hp]
    simp only [Bool.false_eq_true, if_false]
    rw [ih rest hx.2]
    cases find rest [c] <;> simp [Nat.add_assoc]

theorem find_single_none (c : Char) (t : Str) (h : c ∉ t) : find t [c] = none := by
  have := find_single_pass c t [] h
  simpa [find] using this

theorem find_single_isSome (c : Char) : ∀ (t : Str), c ∈ t → (find t [c]).isSome = true := by
  intro t
  induction t with
  | nil => intro h; simp at h
  | cons x t ih =>
    intro h
    rw [find]
    by_cases hx : c = x
    · simp [List.isPrefixOf, hx]
    · have : c ∈ t := by
        rcases List.mem_cons.1 h with h | h
        · exact absurd h hx
        · exact h
      simp [List.isPrefixOf, hx, ih this]

/-! The placeholders of a well-formed template -/

theorem betweensLoop_nil (fuel : Nat) : betweensLoop [LB] [RB] fuel [] = [] := by
  cases fuel with
  | zero => rfl
  | succ f => simp [betweensLoop, find]

theorem betweensLoop_pass (fuel : Nat) (t rest : Str) (h : LB ∉ t) :
    betweensLoop [LB] [RB] fuel (t ++ rest) = betweensLoop [LB] [RB] fuel rest := by
  cases fuel with
  | zero => rfl
  | succ f =>
    rw [betweensLoop, betweensLoop, find_single_pass LB t rest h]
    cases hf : find rest [LB] with
    | none => simp
    | some i =>
      have : List.drop (i + t.length + 1) (t ++ rest) = List.drop (i + 1) rest := by
        rw [List.drop_append_eq_append_drop]
        have h1 : List.drop (i + t.length + 1) t = [] := List.drop_eq_nil_of_le (by omega)
        have h2 : i + t.length + 1 - t.length = i + 1 := by omega
        simp [h1, h2]
      simp [this]

theorem betweensLoop_tok (fuel : Nat) (ds rest : Str) (h : RB ∉ ds) :
    betweensLoop [LB] [RB] (fuel + 1) (LB :: ds ++ RB :: rest)
      = ds :: betweensLoop [LB] [RB] fuel rest := by
  rw [betweensLoop]
  simp only [List.cons_append, find_single_head]
  have h1 : find (ds ++ RB :: rest) [RB] = some ds.length := by
    rw [find_single_pass RB ds _ h, find_single_head]; simp
  simp [h1]

theorem natToString_not_mem (c : Char) (hc : c.isDigit = false) (n : Nat) :
    c ∉ natToString n := by
  intro h
  have := natToString_isDigit n c h
  rw [hc] at this
  exact Bool.noConfusion this

theorem render_cons (p : Piece) (ps : List Piece) : render (p :: ps) = p.text ++ render ps := by
  simp [render]

theorem indices_length_le (ps : List Piece) : (indices ps).length ≤ (render ps).length := by
  induction ps with
  | nil => simp [indices, render]
  | cons p ps ih =>
    rw [render_cons]
    cases p with
    | lit t => simp only [indices, List.filterMap_cons, List.length_append] at ih ⊢; omega
    | tok n =>
      simp only [indices, List.filterMap_cons, List.length_append, List.length_cons,
        Piece.text] at ih ⊢
      omega

theorem betweensLoop_render (ps : List Piece) (hw : ∀ p ∈ ps, p.WellFormed) :
    ∀ fuel, (indices ps).length < fuel →
      betweensLoop [LB] [RB] fuel (render ps) = (indices ps).map natToString := by
  induction ps with
  | nil => intro fuel _; simp [render, indices, betweensLoop_nil]
  | cons p ps ih =>
    intro fuel hf
    have hw2 : ∀ q ∈ ps, q.WellFormed := fun q hq => hw q (List.mem_cons_of_mem _ hq)
    have hp := hw p (List.mem_cons_self _ _)
    rw [render_cons]
    cases p with
    | lit t =>
      simp only [Piece.text]
      rw [betweensLoop_pass fuel t _ hp.1]
      simpa [indices] using ih hw2 fuel (by simpa [indices] using hf)
    | tok n =>
      cases fuel with
      | zero => omega
      | succ f =>
        have hlen : (indices ps).length < f := by
          simp only [indices, List.filterMap_cons, List.length_cons] at hf ⊢
          omega
        simp only [Piece.text, List.append_assoc, List.singleton_append]
        rw [betweensLoop_tok f _ _ (natToString_not_mem RB (by decide) n)]
        rw [ih hw2 f hlen]
        simp [indices]

theorem betweens_render (ps : List Piece) (hw : ∀ p ∈ ps, p.WellFormed) :
    StringUtil.betweens (render ps) [LB] [RB] = (indices ps).map natToString := by
  simp only [StringUtil.betweens, WeakString.betweens]
  simp only [List.cons_ne_nil, false_and, if_false]
  exact betweensLoop_render ps hw _ (Nat.lt_succ_of_le (indices_length_le ps))

/-! Reading an index back -/

theorem isDigit_not_space (c : Char) (h : c.isDigit = true) :
    isspace c = false ∧ c ≠ '-' ∧ c ≠ '+' := by
  refine ⟨?_, ?_, ?_⟩
  · by_contra hs
    simp only [isspace, Bool.not_eq_false, Bool.or_eq_true, decide_eq_true_eq] at hs
    rcases hs with ((((hs | hs) | hs) | hs) | hs) | hs <;> (rw [hs] at h; revert h; decide)
  · intro hs; rw [hs] at h; revert h; decide
  · intro hs; rw [hs] at h; revert h; decide

theorem stoi_natToString (n : Nat) (hn : (n : Int) ≤ INT_MAX) :
    stoi (natToString n) = some (n : Int) := by
  have hall := natToString_isDigit n
  have hne := natToString_ne_nil n
  obtain ⟨c, tl, hct⟩ := List.exists_cons_of_ne_nil hne
  have hc : c.isDigit = true := hall c (by rw [hct]; exact List.mem_cons_self _ _)
  obtain ⟨h1, h2, h3⟩ := isDigit_not_space c hc
  have hd : (natToString n).dropWhile isspace = natToString n := by
    rw [hct]; simp [List.dropWhile, h1]
  have hh : (natToString n).head? = some c := by rw [hct]; rfl
  have ht : (natToString n).takeWhile Char.isDigit = natToString n :=
    List.takeWhile_eq_self_iff.2 hall
  have hm : ¬ (c = '-') := h2
  have hp : ¬ (c = '+') := h3
  simp only [stoi, hd, hh, Option.some.injEq, hm, hp, or_self, if_false, ht, hne,
    digitsVal_natToString]
  have : INT_MIN ≤ (n : Int) := by
    have : (0 : Int) ≤ n := Int.natCast_nonneg n
    simp only [INT_MIN]; omega
  simp [this, hn]

theorem foldl_min_le (xs : List Int) : ∀ x, xs.foldl min x ≤ x ∧ ∀ y ∈ xs, xs.foldl min x ≤ y := by
  induction xs with
  | nil => intro x; simp
  | cons a xs ih =>
    intro x
    obtain ⟨h1, h2⟩ := ih (min x a)
    refine ⟨le_trans h1 (min_le_left _ _), ?_⟩
    intro y hy
    rcases List.mem_cons.1 hy with rfl | hy
    · exact le_trans h1 (min_le_right _ _)
    · exact h2 y hy

theorem foldl_min_mem (xs : List Int) : ∀ x, xs.foldl min x = x ∨ xs.foldl min x ∈ xs := by
  induction xs with
  | nil => intro x; simp
  | cons a xs ih =>
    intro x
    rcases ih (min x a) with h | h
    · rcases min_choice x a with hc | hc
      · left; simpa [hc] using h
      · right; rw [List.foldl_cons, h, hc]; exact List.mem_cons_self _ _
    · right; exact List.mem_cons_of_mem _ h

theorem minimum_eq (xs : List Int) (m : Int) (hm : m ∈ xs) (hmin : ∀ y ∈ xs, m ≤ y) :
    Math.minimum xs = some m := by
  cases xs with
  | nil => simp at hm
  | cons x xs =>
    simp only [Math.minimum, Option.some.injEq]
    obtain ⟨h1, h2⟩ := foldl_min_le xs x
    have hle : xs.foldl min x ≤ m := by
      rcases List.mem_cons.1 hm with rfl | h
      · exact h1
      · exact h2 m h
    have hge : m ≤ xs.foldl min x := by
      rcases foldl_min_mem xs x with h | h
      · rw [h]; exact hmin x (List.mem_cons_self _ _)
      · exact hmin _ (List.mem_cons_of_mem _ h)
    exact le_antisymm hle hge

theorem indices_wellFormed (ps : List Piece) (hw : ∀ p ∈ ps, p.WellFormed) :
    ∀ n ∈ indices ps, (n : Int) ≤ INT_MAX := by
  intro n hn
  simp only [indices, List.mem_filterMap] at hn
  obtain ⟨p, hp, hpn⟩ := hn
  cases p with
  | lit t => simp at hpn
  | tok k =>
    simp only [Option.some.injEq] at hpn
    subst hpn
    exact hw _ hp

theorem numericTokens_render (ps : List Piece) (hw : ∀ p ∈ ps, p.WellFormed) :
    numericTokens (render ps) = (indices ps).map (fun (n : Nat) => (n : Int)) := by
  rw [numericTokens, betweens_render ps hw, List.filterMap_map]
  have hi := indices_wellFormed ps hw
  generalize indices ps = l at hi
  induction l with
  | nil => rfl
  | cons a l ih =>
    have ha := stoi_natToString a (hi a (List.mem_cons_self _ _))
    have ih2 := ih (fun n hn => hi n (List.mem_cons_of_mem _ hn))
    have hfa : ((fun it => if isNumeric it = true then stoi it else none) ∘ natToString) a
        = some (a : Int) := by
      simp [Function.comp, isNumeric, ha]
    rw [List.filterMap_cons, hfa, ih2, List.map_cons]

theorem size_t_natCast (n : Nat) (hn : (n : Int) ≤ INT_MAX) : size_t (n : Int) = n := by
  simp only [size_t, SIZE_MOD, INT_MAX] at *
  have h0 : (0 : Int) ≤ n := Int.natCast_nonneg n
  have : (n : Int) % ((2 ^ 64 : Nat) : Int) = n := by
    apply Int.emod_eq_of_lt h0
    norm_num
    omega
  rw [this]; simp

/-! Replacing one placeholder -/

theorem render_map_cons (f : Piece → Piece) (p : Piece) (ps : List Piece) :
    render ((p :: ps).map f) = (f p).text ++ render (ps.map f) := by
  simp [render]

theorem replaceAll_render (m : Nat) (r : Str) (ps : List Piece)
    (hw : ∀ p ∈ ps, p.WellFormed) :
    StringUtil.replaceAll (render ps) (LB :: natToString m ++ [RB]) r
      = render (ps.map (Piece.fill m r)) := by
  simp only [StringUtil.replaceAll, WeakString.replaceAll]
  induction ps with
  | nil => simp [render, replaceAllAux]
  | cons p ps ih =>
    have hw2 : ∀ q ∈ ps, q.WellFormed := fun q hq => hw q (List.mem_cons_of_mem _ hq)
    have hp := hw p (List.mem_cons_self _ _)
    rw [render_cons, render_map_cons, ← ih hw2]
    cases p with
    | lit t =>
      simp only [Piece.text, Piece.fill]
      exact replaceAllAux_pass LB _ r t _ hp.1
    | tok n =>
      by_cases hnm : n = m
      · subst hnm
        simp only [Piece.text, Piece.fill, if_true]
        have := replaceAllAux_match (LB :: natToString n ++ [RB]) r (render ps) (by simp)
        simpa using this
      · simp only [Piece.text, Piece.fill, hnm, if_false]
        have hno : List.isPrefixOf (LB :: natToString m ++ [RB])
            (LB :: natToString n ++ [RB] ++ render ps) = false := by
          by_contra hpre
          simp only [Bool.not_eq_false] at hpre
          rw [List.isPrefixOf_iff_prefix] at hpre
          obtain ⟨z, hz⟩ := hpre
          simp only [List.cons_append, List.cons.injEq, true_and, List.append_assoc] at hz
          have hRm : RB ∉ natToString m := natToString_not_mem RB (by decide) m
          have hRn : RB ∉ natToString n := natToString_not_mem RB (by decide) n
          have key := List.append_eq_append_iff.1 hz
          rcases key with ⟨a, h1, h2⟩ | ⟨a, h1, h2⟩
          · -- natToString n = natToString m ++ a
            cases a with
            | nil =>
              simp only [List.append_nil] at h1
              exact hnm (natToString_injective n m h1)
            | cons x a =>
              simp only [List.singleton_append, List.cons_append, List.cons.injEq] at h2
              apply hRn
              rw [h1, ← h2.1]
              simp
          · cases a with
            | nil =>
              simp only [List.append_nil] at h1
              exact hnm (natToString_injective n m h1.symm)
            | cons x a =>
              simp only [List.singleton_append, List.cons_append, List.cons.injEq] at h2
              apply hRm
              rw [h1, ← h2.1]
              simp
        have hns : LB ∉ natToString n ++ [RB] := by
          intro h
          rcases List.mem_append.1 h with h | h
          · exact natToString_not_mem LB (by decide) n h
          · simp only [List.mem_singleton] at h
            revert h; decide
        simp only [List.cons_append]
        rw [replaceAllAux]
        simp only [List.cons_append] at hno
        simp only [hno, Bool.false_eq_true, and_false, if_false]
        have := replaceAllAux_pass LB (natToString m ++ [RB]) r (natToString n ++ [RB])
          (render ps) hns
        simp only [List.append_assoc, List.singleton_append] at this ⊢
        rw [this]

theorem substitute_step (ps : List Piece) (hw : ∀ p ∈ ps, p.WellFormed) (m : Nat)
    (hm : m ∈ indices ps) (hmin : ∀ n ∈ indices ps, m ≤ n) (r : Str) (v : Value)
    (hv : toString v = r) :
    _substitute (render ps) v = some (render (ps.map (Piece.fill m r))) := by
  have hmI : (m : Int) ≤ INT_MAX := indices_wellFormed ps hw m hm
  have hmin2 : Math.minimum (numericTokens (render ps)) = some (m : Int) := by
    rw [numericTokens_render ps hw]
    apply minimum_eq
    · exact List.mem_map.2 ⟨m, hm, rfl⟩
    · intro y hy
      obtain ⟨n, hn, rfl⟩ := List.mem_map.1 hy
      exact_mod_cast hmin n hn
  simp only [_substitute, hmin2, size_t_natCast m hmI, hv]
  rw [replaceAll_render m r ps hw]

/-! Several rounds -/

theorem indices_map_fill (m : Nat) (r : Str) (ps : List Piece) :
    indices (ps.map (Piece.fill m r)) = (indices ps).filter (fun i => i ≠ m) := by
  induction ps with
  | nil => rfl
  | cons p ps ih =>
    cases p with
    | lit t => simpa [indices, Piece.fill] using ih
    | tok n =>
      by_cases h : n = m
      · simp only [indices] at ih
        simp [indices, Piece.fill, h, ih]
      · simp only [indices] at ih
        simp [indices, Piece.fill, h, ih]

theorem wellFormed_map_fill (m : Nat) (r : Str) (hr : LB ∉ r ∧ RB ∉ r) (ps : List Piece)
    (hw : ∀ p ∈ ps, p.WellFormed) : ∀ p ∈ ps.map (Piece.fill m r), p.WellFormed := by
  intro p hp
  obtain ⟨q, hq, rfl⟩ := List.mem_map.1 hp
  have := hw q hq
  cases q with
  | lit t => exact this
  | tok n =>
    by_cases h : n = m
    · simp only [Piece.fill, h, if_true]; exact hr
    · simp only [Piece.fill, h, if_false]; exact this

theorem rank_min (ps : List Piece) (m : Nat) (hmin : ∀ n ∈ indices ps, m ≤ n) :
    rank ps m = 0 := by
  have : (indices ps).filter (fun i => i < m) = [] := by
    rw [List.filter_eq_nil_iff]
    intro a ha
    have := hmin a ha
    simp only [decide_eq_true_eq]; omega
  simp [rank, this]

theorem rank_map_fill (ps : List Piece) (m : Nat) (r : Str) (hm : m ∈ indices ps)
    (n : Nat) (hmn : m < n) :
    rank ps n = rank (ps.map (Piece.fill m r)) n + 1 := by
  simp only [rank, indices_map_fill]
  rw [← List.card_toFinset, ← List.card_toFinset, List.toFinset_filter, List.toFinset_filter,
    List.toFinset_filter]
  simp only [decide_eq_true_eq, decide_not]
  have hmem : m ∈ Finset.filter (fun i => i < n) (indices ps).toFinset := by
    simp [hm, hmn]
  have e : Finset.filter (fun i => i < n)
      (Finset.filter (fun i => ¬ i = m) (indices ps).toFinset)
      = (Finset.filter (fun i => i < n) (indices ps).toFinset).erase m := by
    ext x
    simp only [Finset.mem_filter, List.mem_toFinset, Finset.mem_erase]
    tauto
  have hpos : 0 < (Finset.filter (fun i => i < n) (indices ps).toFinset).card :=
    Finset.card_pos.2 ⟨m, hmem⟩
  have e2 : (Finset.filter (fun i => i < n)
      (Finset.filter (fun i => (!decide (i = m)) = true) (indices ps).toFinset))
      = (Finset.filter (fun i => i < n) (indices ps).toFinset).erase m := by
    rw [← e]
    congr 1
    ext x
    simp
  rw [e2, Finset.card_erase_of_mem hmem]
  omega

theorem dedup_length_map_fill (ps : List Piece) (m : Nat) (r : Str) (hm : m ∈ indices ps) :
    (indices ps).dedup.length = (indices (ps.map (Piece.fill m r))).dedup.length + 1 := by
  rw [indices_map_fill, ← List.card_toFinset, ← List.card_toFinset, List.toFinset_filter]
  have hmem : m ∈ (indices ps).toFinset := by simp [hm]
  have e : Finset.filter (fun i => (decide (i ≠ m)) = true) (indices ps).toFinset
      = (indices ps).toFinset.erase m := by
    ext x
    simp only [Finset.mem_filter, List.mem_toFinset, Finset.mem_erase, decide_eq_true_eq]
    tauto
  have hpos : 0 < (indices ps).toFinset.card := Finset.card_pos.2 ⟨m, hmem⟩
  rw [e, Finset.card_erase_of_mem hmem]
  omega

theorem fillAll_nil (ps : List Piece) (p : Piece) : Piece.fillAll ps [] p = p := by
  cases p <;> simp [Piece.fillAll]

theorem fillAll_cons (ps : List Piece) (m : Nat) (r : Str) (rs : List Str)
    (hm : m ∈ indices ps) (hmin : ∀ n ∈ indices ps, m ≤ n) :
    ∀ p ∈ ps, Piece.fillAll ps (r :: rs) p
      = Piece.fillAll (ps.map (Piece.fill m r)) rs (Piece.fill m r p) := by
  intro p hp
  cases p with
  | lit t => simp [Piece.fillAll, Piece.fill]
  | tok n =>
    by_cases h : n = m
    · subst h
      simp [Piece.fillAll, Piece.fill, rank_min ps n hmin]
    · have hn : n ∈ indices ps := by
        simp only [indices, List.mem_filterMap]
        exact ⟨_, hp, rfl⟩
      have hlt : m < n := lt_of_le_of_ne (hmin n hn) (Ne.symm h)
      simp [Piece.fillAll, Piece.fill, h, rank_map_fill ps m r hm n hlt]

theorem exists_min_index (ps : List Piece) (h : 0 < (indices ps).dedup.length) :
    ∃ m, m ∈ indices ps ∧ ∀ n ∈ indices ps, m ≤ n := by
  have hne : (indices ps).toFinset.Nonempty := by
    rw [← Finset.card_pos, List.card_toFinset]; exact h
  refine ⟨(indices ps).toFinset.min' hne, ?_, ?_⟩
  · exact List.mem_toFinset.1 (Finset.min'_mem _ hne)
  · intro n hn
    exact Finset.min'_le _ n (List.mem_toFinset.2 hn)

theorem substitute_rounds (vs : List Value) : ∀ (ps : List Piece) (v : Value),
    (∀ p ∈ ps, p.WellFormed) →
    (∀ x ∈ v :: vs, LB ∉ toString x ∧ RB ∉ toString x) →
    (v :: vs).length ≤ (indices ps).dedup.length →
    substitute (render ps) v vs
      = some (render (ps.map (Piece.fillAll ps ((v :: vs).map toString)))) := by
  induction vs with
  | nil =>
    intro ps v hw _ hk
    obtain ⟨m, hm, hmin⟩ := exists_min_index ps (by simpa using hk)
    simp only [substitute, List.map_cons, List.map_nil]
    rw [substitute_step ps hw m hm hmin (toString v) v rfl]
    congr 2
    apply List.map_congr_left
    intro p hp
    rw [fillAll_cons ps m (toString v) [] hm hmin p hp, fillAll_nil]
  | cons a vs ih =>
    intro ps v hw hv hk
    obtain ⟨m, hm, hmin⟩ := exists_min_index ps (by simp at hk; omega)
    have hr := hv v (List.mem_cons_self _ _)
    have hw2 := wellFormed_map_fill m (toString v) hr ps hw
    have hk2 : (a :: vs).length ≤ (indices (ps.map (Piece.fill m (toString v)))).dedup.length := by
      have := dedup_length_map_fill ps m (toString v) hm
      simp only [List.length_cons] at hk ⊢
      omega
    have hv2 : ∀ x ∈ a :: vs, LB ∉ toString x ∧ RB ∉ toString x :=
      fun x hx => hv x (List.mem_cons_of_mem _ hx)
    simp only [substitute]
    rw [substitute_step ps hw m hm hmin (toString v) v rfl]
    simp only []
    rw [ih _ a hw2 hv2 hk2, List.map_map]
    congr 2
    apply List.map_congr_left
    intro p hp
    have e : List.map toString (v :: a :: vs) = toString v :: List.map toString (a :: vs) := rfl
    rw [e, fillAll_cons ps m (toString v) _ hm hmin p hp]
    rfl

/-! SQL literals -/

theorem replaceAll_quote (s : Str) :
    WeakString.replaceAll s [QUOTE] [QUOTE, QUOTE] = sqlEscape s := by
  simp only [WeakString.replaceAll]
  induction s with
  | nil => rfl
  | cons c s ih =>
    rw [replaceAllAux]
    by_cases h : c = QUOTE
    · subst h
      simp only [sqlEscape] at ih
      simp [List.isPrefixOf, sqlEscape, ih]
    · have h2 : ¬ (QUOTE = c) := fun e => h e.symm
      simp only [sqlEscape] at ih
      simp [List.isPrefixOf, sqlEscape, h, h2, ih]

theorem sqlEscape_of_not_mem (s : Str) (h : QUOTE ∉ s) : sqlEscape s = s := by
  induction s with
  | nil => rfl
  | cons c s ih =>
    simp only [List.mem_cons, not_or] at h
    have h1 : ¬ (c = QUOTE) := fun e => h.1 e.symm
    simp only [sqlEscape] at ih
    simp [sqlEscape, h1, ih h.2]

theorem toSQLText_eq (s : Str) (hs : s ≠ []) : toSQLText s = QUOTE :: sqlEscape s ++ [QUOTE] := by
  simp only [toSQLText, hs, if_false]
  by_cases h : QUOTE ∈ s
  · simp [find_single_isSome QUOTE s h, replaceAll_quote]
  · simp [find_single_none QUOTE s h, sqlEscape_of_not_mem s h]

theorem to_string_ne_NULL (n : Int) : to_string n ≠ "NULL".toList := by
  intro h
  simp only [to_string] at h
  split at h
  · exact absurd (List.head_eq_of_cons_eq h) (by decide)
  · have hne := natToString_ne_nil n.natAbs
    obtain ⟨c, tl, hct⟩ := List.exists_cons_of_ne_nil hne
    have hc : c.isDigit = true := natToString_isDigit n.natAbs c (by rw [hct]; exact List.mem_cons_self _ _)
    rw [hct] at h
    have : c = 'N' := List.head_eq_of_cons_eq h
    rw [this] at hc
    revert hc; decide

theorem substituteSQL_eq (vs : List Value) : ∀ (t : Str) (v : Value),
    substituteSQL t v vs
      = substitute t (.str (toSQL v)) (vs.map (fun x => Value.str (toSQL x))) := by
  induction vs with
  | nil => intro t v; rfl
  | cons a vs ih =>
    intro t v
    simp only [substituteSQL, substitute, List.map_cons]
    have e : _substituteSQL t v = _substitute t (.str (toSQL v)) := rfl
    rw [e]
    cases _substitute t (.str (toSQL v)) with
    | none => rfl
    | some res => exact ih res a

/-! The claims on substitution and SQL literals -/

/-- C1: one round of substitution. A template whose braces occur only as
placeholders with a canonical decimal index that fits a 32-bit `int` is the
rendering of a list of well-formed pieces. If `m` is the smallest index
present, `substitute` with one value returns the template with every
placeholder of index `m` replaced by the plain rendering of the value; the
literal text and the placeholders of a larger index are unchanged. -/
theorem C1_substitute_one_round (ps : List Piece) (v : Value) (m : Nat)
    (hw : ∀ p ∈ ps, p.WellFormed) (hm : m ∈ indices ps)
    (hmin : ∀ n ∈ indices ps, m ≤ n) :
    substitute (render ps) v [] = some (render (ps.map (Piece.fill m (toString v)))) :=
  substitute_step ps hw m hm hmin (toString v) v rfl

/-- The claim C1 on the template `{2}-{1}-{2}-{1}` and the value `7`. -/
theorem C1_substitute_one_round_witness :
    substitute "\x7b2\x7d-\x7b1\x7d-\x7b2\x7d-\x7b1\x7d".toList (.int 7) []
      = some "\x7b2\x7d-7-\x7b2\x7d-7".toList :=
  C1_substitute_one_round
    [.tok 2, .lit ['-'], .tok 1, .lit ['-'], .tok 2, .lit ['-'], .tok 1] (.int 7) 1
    (by decide) (by decide) (by decide)

/-- C2: the values are consumed in ascending order of the indices, one per
round. For a well-formed template and at most as many values as it has
distinct indices, none of whose renderings holds a brace, `substitute` returns
the template with the placeholders of the `j`-th smallest index replaced by
the rendering of the `j`-th value, whatever the order of the placeholders. -/
theorem C2_substitute_ascending (ps : List Piece) (v : Value) (vs : List Value)
    (hw : ∀ p ∈ ps, p.WellFormed)
    (hv : ∀ x ∈ v :: vs, LB ∉ toString x ∧ RB ∉ toString x)
    (hk : (v :: vs).length ≤ (indices ps).dedup.length) :
    substitute (render ps) v vs
      = some (render (ps.map (Piece.fillAll ps ((v :: vs).map toString)))) :=
  substitute_rounds vs ps v hw hv hk

/-- The claim C2 on its two examples: `Hello {0}, you are {1}` with `Sam` and
`25`, and `{2} then {1}` with `a` and `b`. -/
theorem C2_substitute_ascending_witness :
    substitute "Hello \x7b0\x7d, you are \x7b1\x7d".toList (.cstr "Sam".toList) [.int 25]
      = some "Hello Sam, you are 25".toList
    ∧ substitute "\x7b2\x7d then \x7b1\x7d".toList (.cstr "a".toList) [.cstr "b".toList]
      = some "b then a".toList :=
  ⟨C2_substitute_ascending
      [.lit "Hello ".toList, .tok 0, .lit ", you are ".toList, .tok 1]
      (.cstr "Sam".toList) [.int 25] (by decide) (by decide) (by decide),
   C2_substitute_ascending [.tok 2, .lit " then ".toList, .tok 1]
      (.cstr "a".toList) [.cstr "b".toList] (by decide) (by decide) (by decide)⟩

/-- C3: `substituteSQL` is `substitute` on the SQL renderings. For every
template and all values, `substituteSQL` returns what `substitute` returns
for the texts `toSQL` makes of the values (both have no result together when
no numeric placeholder is left); on the template `{0}` the empty text gives
`NULL` and `O'Brien` gives `'O''Brien'`. -/
theorem C3_substituteSQL_refines (t : Str) (v : Value) (vs : List Value) :
    substituteSQL t v vs
      = substitute t (.str (toSQL v)) (vs.map (fun x => Value.str (toSQL x)))
    ∧ substituteSQL "\x7b0\x7d".toList (.cstr []) [] = some "NULL".toList
    ∧ substituteSQL "\x7b0\x7d".toList (.cstr "O'Brien".toList) []
        = some "'O''Brien'".toList :=
  ⟨substituteSQL_eq vs t v, by decide, by decide⟩

/-- C4: the SQL rendering of text. The empty text gives the unquoted `NULL`;
a non-empty text `s`, passed as `std::string`, `WeakString` or C string, gives
a single quote, `s` with every single quote doubled, and a single quote; a
single character is rendered as the text of that one character. -/
theorem C4_toSQL_text (s : Str) (c : Char) (hs : s ≠ []) :
    toSQL (.str []) = "NULL".toList ∧ toSQL (.wstr []) = "NULL".toList
    ∧ toSQL (.cstr []) = "NULL".toList
    ∧ toSQL (.str s) = QUOTE :: sqlEscape s ++ [QUOTE]
    ∧ toSQL (.wstr s) = QUOTE :: sqlEscape s ++ [QUOTE]
    ∧ toSQL (.cstr s) = QUOTE :: sqlEscape s ++ [QUOTE]
    ∧ toSQL (.char c) = QUOTE :: sqlEscape [c] ++ [QUOTE] :=
  ⟨rfl, rfl, rfl, toSQLText_eq s hs, toSQLText_eq s hs, toSQLText_eq s hs,
    toSQLText_eq [c] (by simp)⟩

/-- The claim C4 on the text `O'Brien`. -/
theorem C4_toSQL_text_witness :
    toSQL (.cstr "O'Brien".toList) = "'O''Brien'".toList :=
  (C4_toSQL_text "O'Brien".toList 'x' (by decide)).2.2.2.2.2.1

/-- C5: the SQL rendering of an integer. For every integer `n` (of 32 bits in
particular), `toSQL n` is the unquoted `NULL` exactly when `n` is `INT_MIN`,
and is the decimal text of `n` otherwise. -/
theorem C5_toSQL_sentinel (n : Int) :
    (toSQL (.int n) = "NULL".toList ↔ n = INT_MIN)
    ∧ toSQL (.int n) = (if n = INT_MIN then "NULL".toList else to_string n) := by
  refine ⟨?_, rfl⟩
  simp only [toSQL]
  constructor
  · intro h
    by_contra hn
    rw [if_neg hn] at h
    exact to_string_ne_NULL n h
  · intro h; rw [if_pos h]

/-! The characters of the natural part -/

theorem cipherStep_chars (n cc i : Nat) (str : Str)
    (h : ∀ c ∈ str, c = ',' ∨ c.isDigit = true) :
    ∀ c ∈ cipherStep n cc str i, c = ',' ∨ c.isDigit = true := by
  intro c hc
  simp only [cipherStep] at hc
  split at hc
  · exact h c hc
  · rcases List.mem_append.1 hc with hc | hc
    · exact Or.inr (natToString_isDigit _ c hc)
    · split at hc
      · rcases List.mem_cons.1 hc with hc | hc
        · exact Or.inl hc
        · exact h c hc
      · exact h c hc

theorem foldl_cipherStep_chars (n cc : Nat) (l : List Nat) : ∀ (str : Str),
    (∀ c ∈ str, c = ',' ∨ c.isDigit = true) →
    ∀ c ∈ l.foldl (cipherStep n cc) str, c = ',' ∨ c.isDigit = true := by
  induction l with
  | nil => intro str h; exact h
  | cons i l ih =>
    intro str h
    exact ih _ (cipherStep_chars n cc i str h)

theorem naturalString_chars (n : Nat) :
    ∀ c ∈ naturalString n, c = ',' ∨ c.isDigit = true := by
  intro c hc
  simp only [naturalString] at hc
  split at hc
  · simp only [List.mem_singleton] at hc
    right; rw [hc]; rfl
  · exact foldl_cipherStep_chars n _ _ [] (by simp) c hc

/-! The claims on the number format -/

/-- C7, at the value `999999999999999` with precision `0`: the loop of lines
262-276 with the digit count `16`, which is what line 260 computes there (the
`double` logarithm of `999999999999999` is `15.0`, and one is added), writes
`0,999,999,999,999,999`: a leading group `0` in front of the fifteen digits.
With the count `15` of the digits the same loop writes
`999,999,999,999,999`. -/
theorem C7_leading_zero_group :
    (List.range (16 + 1)).foldl (cipherStep 999999999999999 16) []
      = "0,999,999,999,999,999".toList
    ∧ (natToString 999999999999999).length = 15
    ∧ (List.range (15 + 1)).foldl (cipherStep 999999999999999 15) []
      = "999,999,999,999,999".toList := by
  decide

/-- C10: `percentFormat`. For every value and precision the result is empty
when the value is the sentinel `INT_MIN`, and otherwise
`numberFormat(value * 100, precision)` followed by `%`: the caller passes the
fraction. So `0.113391` gives `11.3%` and `11.3391` gives `1,133.9%` at
precision `1`. -/
theorem C10_percentFormat (v : ℚ) (p : Int) :
    percentFormat v p
      = (if v = (INT_MIN : ℚ) then [] else numberFormat (v * 100) p ++ ['%'])
    ∧ percentFormat (INT_MIN : ℚ) p = []
    ∧ percentFormat 0.113391 1 = "11.3%".toList
    ∧ percentFormat 11.3391 1 = "1,133.9%".toList :=
  ⟨rfl, by simp [percentFormat], by decide!, by decide!⟩

/-! Colour formats -/

theorem substitute_color (color text : Str) (hc : LB ∉ color ∧ RB ∉ color) :
    substitute "<font color='\x7b1\x7d'>\x7b2\x7d</font>".toList (.str color) [.str text]
      = some ("<font color='".toList ++ color ++ "'>".toList ++ text ++ "</font>".toList) := by
  have hr : "<font color='\x7b1\x7d'>\x7b2\x7d</font>".toList
      = render [.lit "<font color='".toList, .tok 1, .lit "'>".toList, .tok 2,
          .lit "</font>".toList] := by decide
  have hw : ∀ p ∈ [Piece.lit "<font color='".toList, .tok 1, .lit "'>".toList, .tok 2,
      .lit "</font>".toList], p.WellFormed := by decide
  rw [hr]
  simp only [substitute]
  rw [substitute_step _ hw 1 (by decide) (by decide) color (.str color) rfl]
  simp only []
  have hw2 := wellFormed_map_fill 1 color hc _ hw
  have hi : indices (List.map (Piece.fill 1 color)
      [Piece.lit "<font color='".toList, .tok 1, .lit "'>".toList, .tok 2,
        .lit "</font>".toList]) = [2] := by
    rw [indices_map_fill]; decide
  rw [substitute_step _ hw2 2 (by rw [hi]; decide) (by rw [hi]; decide) text (.str text) rfl]
  simp [render, Piece.fill, Piece.text]

theorem colorOf_braces (v d : ℚ) : LB ∉ colorOf v d ∧ RB ∉ colorOf v d := by
  unfold colorOf
  split
  · decide
  · split <;> decide

/-! Tokens that are not an index -/

/-- C11: the colour formats. For every value, precision and delimiter,
`colorNumberFormat` returns the font tag of the colour around
`numberFormat(value, precision)` and `colorPercentFormat` the same tag around
`percentFormat(value, precision)`; the colour is `red` when the value as passed
is greater than the delimiter, `black` when it is equal and `blue` when it is
smaller. So `colorNumberFormat(0.001, 2)` is the red `0`, and
`colorPercentFormat` of the sentinel is the blue empty text. -/
theorem C11_color_formats (v : ℚ) (p : Int) (d : ℚ) :
    colorNumberFormat v p d
      = some ("<font color='".toList ++ colorOf v d ++ "'>".toList
          ++ numberFormat v p ++ "</font>".toList)
    ∧ colorPercentFormat v p d
      = some ("<font color='".toList ++ colorOf v d ++ "'>".toList
          ++ percentFormat v p ++ "</font>".toList)
    ∧ (colorOf v d = "red".toList ↔ v > d)
    ∧ (colorOf v d = "black".toList ↔ v = d)
    ∧ (colorOf v d = "blue".toList ↔ v < d)
    ∧ colorNumberFormat 0.001 2 0 = some "<font color='red'>0</font>".toList
    ∧ colorPercentFormat (INT_MIN : ℚ) 2 0 = some "<font color='blue'></font>".toList := by
  refine ⟨substitute_color _ _ (colorOf_braces v d), substitute_color _ _ (colorOf_braces v d),
    ?_, ?_, ?_, by decide!, by decide!⟩
  · unfold colorOf
    by_cases h1 : v > d
    · simp [h1]
    · by_cases h2 : v = d
      · simp [h1, h2]
      · simp [h1, h2]
  · unfold colorOf
    by_cases h1 : v > d
    · have : v ≠ d := ne_of_gt h1
      simp [h1, this]
    · by_cases h2 : v = d
      · simp [h2]
      · simp [h1, h2]
  · unfold colorOf
    by_cases h1 : v > d
    · have : ¬ v < d := not_lt.2 (le_of_lt h1)
      simp [h1, this]
    · by_cases h2 : v = d
      · simp [h2]
      · have : v < d := lt_of_le_of_ne (not_lt.1 h1) h2
        simp [h1, h2, this]

/-- C12, on the code: the tokens `-1`, `1abc` and ` 1` pass `isNumeric`,
because `stoi` reads a sign, leading blanks and a run of digits followed by
anything. On the template `{-1} {0}` the minimum is `-1`, the token searched is
`{18446744073709551615}`, and every value leaves the template as it is: `{0}`
is not replaced. In the same way `{2}` is not replaced after `{1abc}` or
`{ 1}`. -/
theorem C12_substitute_token_filter :
    (∀ v : Value, substitute "\x7b-1\x7d \x7b0\x7d".toList v []
      = some "\x7b-1\x7d \x7b0\x7d".toList)
    ∧ numericTokens "\x7b-1\x7d \x7b0\x7d".toList = [-1, 0]
    ∧ isNumeric "-1".toList = true ∧ isNumeric "1abc".toList = true
    ∧ isNumeric " 1".toList = true
    ∧ (∀ v : Value, substitute "\x7b1abc\x7d \x7b2\x7d".toList v []
      = some "\x7b1abc\x7d \x7b2\x7d".toList)
    ∧ (∀ v : Value, substitute "\x7b 1\x7d \x7b2\x7d".toList v []
      = some "\x7b 1\x7d \x7b2\x7d".toList) :=
  ⟨fun _ => rfl, by decide, by decide, by decide, by decide, fun _ => rfl, fun _ => rfl⟩

theorem find_some_spec (p : Str) : ∀ (s : Str) (i : Nat), find s p = some i →
    i ≤ s.length ∧ p <+: s.drop i ∧ ∀ k < i, ¬ p <+: s.drop k := by
  intro s
  induction s with
  | nil =>
    intro i h
    simp only [find] at h
    split at h
    · rename_i hp
      simp only [Option.some.injEq] at h
      subst h; subst hp
      exact ⟨le_refl _, by simp, fun k hk => absurd hk (Nat.not_lt_zero k)⟩
    · exact absurd h (by simp)
  | cons c cs ih =>
    intro i h
    rw [find] at h
    split at h
    · rename_i hp
      simp only [Option.some.injEq] at h
      subst h
      exact ⟨Nat.zero_le _, by simpa using List.isPrefixOf_iff_prefix.1 hp,
        fun k hk => absurd hk (Nat.not_lt_zero k)⟩
    · rename_i hp
      cases hf : find cs p with
      | none => rw [hf] at h; exact absurd h (by simp)
      | some j =>
        rw [hf] at h
        simp only [Option.map_some', Option.some.injEq] at h
        subst h
        obtain ⟨h1, h2, h3⟩ := ih j hf
        refine ⟨by simp only [List.length_cons]; omega, by simpa using h2, ?_⟩
        intro k hk
        cases k with
        | zero =>
          intro hpre
          exact hp (List.isPrefixOf_iff_prefix.2 (by simpa using hpre))
        | succ k =>
          simpa using h3 k (by omega)

theorem find_none_spec (p : Str) : ∀ (s : Str), find s p = none →
    ∀ k ≤ s.length, ¬ p <+: s.drop k := by
  intro s
  induction s with
  | nil =>
    intro h k hk
    simp only [find] at h
    split at h
    · exact absurd h (by simp)
    · rename_i hp
      intro hpre
      have hk0 : k = 0 := by simpa using hk
      subst hk0
      simp only [List.drop_nil, List.prefix_nil] at hpre
      exact hp hpre
  | cons c cs ih =>
    intro h k hk
    rw [find] at h
    split at h
    · exact absurd h (by simp)
    · rename_i hp
      have hf : find cs p = none := by
        cases hf : find cs p with
        | none => rfl
        | some j => rw [hf] at h; exact absurd h (by simp)
      cases k with
      | zero =>
        intro hpre
        exact hp (List.isPrefixOf_iff_prefix.2 (by simpa using hpre))
      | succ k =>
        simpa using ih hf k (by simpa using hk)

theorem find_eq_none_of_absent (p : Str) (s : Str)
    (h : ∀ k ≤ s.length, ¬ p <+: s.drop k) : find s p = none := by
  cases hf : find s p with
  | none => rfl
  | some i =>
    obtain ⟨h1, h2, _⟩ := find_some_spec p s i hf
    exact absurd h2 (h i h1)

theorem prefix_drop_split (p s : Str) (i : Nat) (h : p <+: s.drop i) :
    s = s.take i ++ p ++ s.drop (i + p.length) := by
  obtain ⟨t, ht⟩ := h
  have h1 : s = s.take i ++ s.drop i := (List.take_append_drop i s).symm
  have h2 : s.drop (i + p.length) = t := by
    rw [← List.drop_drop, ← ht]
    simp
  rw [h2, List.append_assoc, ht]
  exact h1

theorem substring_eq (s : Str) (i j : Nat) (h : i + j ≤ s.length) :
    StringUtil.substring s i (i + j) = (s.drop i).take j := by
  have h1 : ¬ (i > i + j) := by omega
  simp only [StringUtil.substring, WeakString.substring, h1, if_false, Nat.min_eq_left h]
  rw [List.drop_take]
  simp

theorem find_length_le (s a : Str) (i : Nat) (hi : find s a = some i) :
    i + a.length ≤ s.length := by
  obtain ⟨_, hi2, _⟩ := find_some_spec a s i hi
  have hsplit := prefix_drop_split a s i hi2
  have := congrArg List.length hsplit
  simp only [List.length_append, List.length_take, List.length_drop] at this
  omega

theorem find_eq_none_of_no_segment (p s : Str) (h : ¬ p <:+: s) : find s p = none := by
  apply find_eq_none_of_absent
  intro k _ hp
  exact h (hp.isInfix.trans (List.drop_suffix k s).isInfix)

theorem find_eq_some_of_first (p s : Str) (i : Nat) (hp : p ≠ []) (h1 : p <+: s.drop i)
    (h2 : ∀ k < i, ¬ p <+: s.drop k) : find s p = some i := by
  have hi : i ≤ s.length := by
    by_contra hc
    rw [List.drop_eq_nil_of_le (by omega)] at h1
    exact hp (List.prefix_nil.1 h1)
  cases hf : find s p with
  | none => exact absurd h1 (find_none_spec p s hf i hi)
  | some m =>
    obtain ⟨_, hm2, hm3⟩ := find_some_spec p s m hf
    rcases Nat.lt_trichotomy m i with hlt | heq | hgt
    · exact absurd hm2 (h2 m hlt)
    · rw [heq]
    · exact absurd h1 (hm3 i hgt)

theorem between_start_missing (s a b : Str) (ha : a ≠ []) (h : find s a = none) :
    StringUtil.between s a b = [] := by
  simp [StringUtil.between, WeakString.between, ha, h]

theorem between_stop_missing (s a b : Str) (i : Nat) (ha : a ≠ []) (hb : b ≠ [])
    (hi : find s a = some i) (h : find (s.drop (i + a.length)) b = none) :
    StringUtil.between s a b = [] := by
  simp [StringUtil.between, WeakString.between, ha, hb, hi, h]

/-! The claims on `between` and `betweens` -/

/-- C14: `between` on markers that are found. For a text `s` (shorter than
`2 ^ 64`, as every `std::string`) and markers `a`, `b` that are not empty, `a`
first occurring in `s` at `i` and `b` next occurring at `j` after the end of
that `a`: `between(s, a, b)` is
`substring(s, i + |a|, find(s, b, i + |a|))`, and `s` is the text before that
`a`, then `a`, the result, `b` and the rest, with no earlier `a` and no earlier
`b` after it. Without `a` the result is the text before the first `b`, without
`b` the text after the first `a`, and without both it is `s`. -/
theorem C14_between_found (s a b : Str) (i j j0 : Nat) (hs : s.length < SIZE_MOD)
    (ha : a ≠ []) (hb : b ≠ [])
    (hi : find s a = some i) (hj : find (s.drop (i + a.length)) b = some j)
    (hj0 : find s b = some j0) :
    StringUtil.between s a b
      = StringUtil.substring s (i + a.length) (findPos s b (i + a.length))
    ∧ s = s.take i ++ a ++ StringUtil.between s a b ++ b
        ++ s.drop (i + a.length + j + b.length)
    ∧ (∀ k < i, ¬ a <+: s.drop k)
    ∧ (∀ k < j, ¬ b <+: s.drop (i + a.length + k))
    ∧ StringUtil.between s [] b = s.take j0
    ∧ StringUtil.between s a [] = s.drop (i + a.length)
    ∧ StringUtil.between s [] [] = s := by
  have _ := hs
  obtain ⟨hi1, hi2, hi3⟩ := find_some_spec a s i hi
  obtain ⟨hj1, hj2, hj3⟩ := find_some_spec b _ j hj
  obtain ⟨hk1, _, _⟩ := find_some_spec b s j0 hj0
  have hlen := find_length_le s a i hi
  have hsplit := prefix_drop_split a s i hi2
  have hjlen : i + a.length + j ≤ s.length := by
    simp only [List.length_drop] at hj1; omega
  have hpos : findPos s b (i + a.length) = i + a.length + j := by
    simp [findPos, findFrom, hlen, hj, Nat.add_comm]
  have hbt : StringUtil.between s a b = (s.drop (i + a.length)).take j := by
    simp [StringUtil.between, WeakString.between, ha, hb, hi, hj]
  have hbe : StringUtil.between s a b
      = StringUtil.substring s (i + a.length) (findPos s b (i + a.length)) := by
    rw [hbt, hpos, substring_eq s _ j hjlen]
  have hbn : StringUtil.between s a [] = s.drop (i + a.length) := by
    simp [StringUtil.between, WeakString.between, ha, hi]
  refine ⟨hbe, ?_, hi3, ?_, ?_, hbn, ?_⟩
  · rw [hbt]
    have h2 := prefix_drop_split b (s.drop (i + a.length)) j hj2
    simp only [List.drop_drop] at h2
    have h3 : s.drop (i + a.length) = (s.drop (i + a.length)).take j ++ b
        ++ s.drop (i + a.length + j + b.length) := by
      have e : i + a.length + (j + b.length) = i + a.length + j + b.length := by omega
      rw [← e]
      convert h2 using 2
    calc s = s.take i ++ a ++ s.drop (i + a.length) := hsplit
      _ = s.take i ++ a ++ ((s.drop (i + a.length)).take j ++ b
            ++ s.drop (i + a.length + j + b.length)) := by rw [← h3]
      _ = _ := by simp only [List.append_assoc]
  · intro k hk
    have := hj3 k hk
    simpa [List.drop_drop, Nat.add_comm, Nat.add_left_comm, Nat.add_assoc] using this
  · simp [StringUtil.between, WeakString.between, hb, hj0]
  · simp [StringUtil.between, WeakString.between]

/-- The claim C14 on `between("ABCD[EFGH]IJK", "[", "]")`, which is `EFGH`. -/
theorem C14_between_found_witness :
    StringUtil.between "ABCD[EFGH]IJK".toList ['['] [']'] = "EFGH".toList
    ∧ StringUtil.between "ABCD[EFGH]IJK".toList ['['] [']']
      = StringUtil.substring "ABCD[EFGH]IJK".toList 5
          (findPos "ABCD[EFGH]IJK".toList [']'] 5) :=
  ⟨by decide,
    (C14_between_found "ABCD[EFGH]IJK".toList ['['] [']'] 4 4 9 (by decide) (by decide)
      (by decide) (by decide) (by decide) (by decide)).1⟩

/-- C15: `between` on markers that are missing. For every text `s` and
markers `a`, `b` that are not empty: if `a` does not occur in `s` the result
of `between(s, a, b)` is the empty text, and if `a` first occurs at `i` and
`b` does not occur after the end of that `a` the result is the empty text as
well. So `between("ABCD", "[", "]")` is empty. -/
theorem C15_between_missing (s a b : Str) (ha : a ≠ []) (hb : b ≠ []) :
    (¬ a <:+: s → StringUtil.between s a b = [])
    ∧ (∀ i : Nat, a <+: s.drop i → (∀ k < i, ¬ a <+: s.drop k) →
        ¬ b <:+: s.drop (i + a.length) → StringUtil.between s a b = [])
    ∧ StringUtil.between "ABCD".toList ['['] [']'] = [] := by
  refine ⟨?_, ?_, by decide⟩
  · intro h
    exact between_start_missing s a b ha (find_eq_none_of_no_segment a s h)
  · intro i h1 h2 h3
    exact between_stop_missing s a b i ha hb (find_eq_some_of_first a s i ha h1 h2)
      (find_eq_none_of_no_segment b _ h3)

/-- The claim C15 on `between("ABCD", "[", "]")`, where the start marker is
missing, and on `between("AB[CD", "[", "]")`, where the end marker is. -/
theorem C15_between_missing_witness :
    StringUtil.between "ABCD".toList ['['] [']'] = []
    ∧ StringUtil.between "AB[CD".toList ['['] [']'] = [] :=
  ⟨(C15_between_missing "ABCD".toList ['['] [']'] (by decide) (by decide)).1 (by decide),
    (C15_between_missing "AB[CD".toList ['['] [']'] (by decide) (by decide)).2.1 2
      (by decide) (by decide) (by decide)⟩

/-! Trim -/

theorem trim_eq_rdropWhile (s : Str) (D : List Str) :
    StringUtil.trim s D = List.rdropWhile (isDelim D) (List.dropWhile (isDelim D) s) := rfl

theorem dropWhile_trim (s : Str) (D : List Str) :
    List.dropWhile (isDelim D) (StringUtil.trim s D) = StringUtil.trim s D := by
  rw [trim_eq_rdropWhile, List.dropWhile_eq_self_iff]
  intro hl
  have hpre : List.rdropWhile (isDelim D) (List.dropWhile (isDelim D) s)
      <+: List.dropWhile (isDelim D) s := List.rdropWhile_prefix _ _
  obtain ⟨t, ht⟩ := hpre
  obtain ⟨c, cs, hcs⟩ := List.exists_cons_of_ne_nil (List.ne_nil_of_length_pos hl)
  have hne : List.dropWhile (isDelim D) s ≠ [] := by
    intro h; rw [h] at hcs; simp [List.rdropWhile] at hcs
  have hhead := List.head_dropWhile_not (isDelim D) s hne
  have hc : (List.dropWhile (isDelim D) s).head hne = c := by
    have : List.dropWhile (isDelim D) s = c :: (cs ++ t) := by rw [← ht, hcs]; rfl
    simp [this]
  rw [hc] at hhead
  simp only [hcs, List.get_eq_getElem, List.getElem_cons_zero, hhead, Bool.false_eq_true,
    not_false_eq_true]

/-! Split and join -/

theorem splitAux_skip (d : Str) : ∀ (xs rest acc : Str),
    splitAux d xs.length acc (xs ++ rest) = splitAux d 0 acc rest := by
  intro xs
  induction xs with
  | nil =>
    intro rest acc
    cases rest <;> simp [splitAux]
  | cons x xs ih => intro rest acc; simp [splitAux, ih]

theorem splitAux_ne_nil (d : Str) : ∀ (cs : Str) (skip : Nat) (acc : Str),
    splitAux d skip acc cs ≠ [] := by
  intro cs
  induction cs with
  | nil => intro skip acc; simp [splitAux]
  | cons c cs ih =>
    intro skip acc
    cases skip with
    | zero =>
      rw [splitAux]
      split
      · simp
      · exact ih 0 _
    | succ k => rw [splitAux]; exact ih k acc

theorem intercalate_cons_of_ne_nil (d x : Str) (L : List Str) (h : L ≠ []) :
    d.intercalate (x :: L) = x ++ d ++ d.intercalate L := by
  obtain ⟨y, L', rfl⟩ := List.exists_cons_of_ne_nil h
  simp [List.intercalate, List.intersperse]

theorem splitAux_join (d : Str) (n : Nat) : ∀ (cs : Str), cs.length ≤ n → ∀ (acc : Str),
    d.intercalate (splitAux d 0 acc cs) = acc.reverse ++ cs := by
  induction n with
  | zero =>
    intro cs h acc
    have : cs = [] := List.length_eq_zero.1 (Nat.le_zero.1 h)
    subst this
    simp [splitAux, List.intercalate]
  | succ n ih =>
    intro cs h acc
    cases cs with
    | nil => simp [splitAux, List.intercalate]
    | cons c cs =>
      rw [splitAux]
      by_cases hp : d ≠ [] ∧ d.isPrefixOf (c :: cs) = true
      · rw [if_pos hp]
        obtain ⟨rest, hrest⟩ := List.isPrefixOf_iff_prefix.1 hp.2
        obtain ⟨x, d', hd⟩ := List.exists_cons_of_ne_nil hp.1
        subst hd
        simp only [List.cons_append, List.cons.injEq] at hrest
        obtain ⟨hx, hcs⟩ := hrest
        subst hx
        have hlen : (x :: d').length - 1 = d'.length := by simp
        rw [hlen, ← hcs, splitAux_skip (x :: d') d' rest []]
        rw [intercalate_cons_of_ne_nil _ _ _ (splitAux_ne_nil _ rest 0 [])]
        have hr : rest.length ≤ n := by
          have := congrArg List.length hcs
          simp only [List.length_append, List.length_cons] at this h
          omega
        rw [ih rest hr []]
        simp
      · rw [if_neg hp]
        have hr : cs.length ≤ n := by simpa using h
        rw [ih cs hr (c :: acc)]
        simp

theorem splitAux_length (d : Str) : ∀ (cs : Str) (skip : Nat) (acc : Str),
    (splitAux d skip acc cs).length = countOccAux d skip cs + 1 := by
  intro cs
  induction cs with
  | nil => intro skip acc; simp [splitAux, countOccAux]
  | cons c cs ih =>
    intro skip acc
    cases skip with
    | zero =>
      rw [splitAux, countOccAux]
      split
      · simp only [List.length_cons, ih]; omega
      · exact ih 0 _
    | succ k => rw [splitAux, countOccAux]; exact ih k acc

/-! Finds -/

theorem finds_fold (s : Str) (k : Nat) : ∀ (D : List Str) (init : Option (Nat × Str)),
    (∀ p0 d0, init = some (p0, d0) → findFrom s d0 k = some p0) →
    (List.foldl (findsStep s k) init D = none →
        init = none ∧ ∀ d ∈ D, findFrom s d k = none)
    ∧ (∀ p d, List.foldl (findsStep s k) init D = some (p, d) →
        findFrom s d k = some p ∧ (d ∈ D ∨ init = some (p, d))
        ∧ (∀ d' ∈ D, ∀ p', findFrom s d' k = some p' → p ≤ p')
        ∧ (∀ p0 d0, init = some (p0, d0) → p ≤ p0)) := by
  intro D
  induction D with
  | nil =>
    intro init hinit
    refine ⟨fun h => ⟨h, by simp⟩, ?_⟩
    intro p d h
    simp only [List.foldl_nil] at h
    refine ⟨hinit p d h, Or.inr h, by simp, ?_⟩
    intro p0 d0 h0
    rw [h] at h0
    simp only [Option.some.injEq, Prod.mk.injEq] at h0
    omega
  | cons e D ih =>
    intro init hinit
    have hstep : ∀ p0 d0, findsStep s k init e = some (p0, d0) → findFrom s d0 k = some p0 := by
      intro p0 d0 h
      unfold findsStep at h
      split at h
      · exact hinit p0 d0 h
      · rename_i he
        simp only [Option.some.injEq, Prod.mk.injEq] at h
        rw [← h.1, ← h.2]; exact he
      · rename_i q e' he
        split at h
        · simp only [Option.some.injEq, Prod.mk.injEq] at h
          rw [← h.1, ← h.2]; exact he
        · exact hinit p0 d0 h
    obtain ⟨ih1, ih2⟩ := ih (findsStep s k init e) hstep
    simp only [List.foldl_cons]
    constructor
    · intro h
      obtain ⟨h1, h2⟩ := ih1 h
      unfold findsStep at h1
      split at h1
      · rename_i he
        refine ⟨h1, ?_⟩
        intro d hd
        rcases List.mem_cons.1 hd with rfl | hd
        · exact he
        · exact h2 d hd
      · exact absurd h1 (by simp)
      · split at h1 <;> exact absurd h1 (by simp)
    · intro p d h
      obtain ⟨h1, h2, h3, h4⟩ := ih2 p d h
      refine ⟨h1, ?_, ?_, ?_⟩
      · rcases h2 with h2 | h2
        · exact Or.inl (List.mem_cons_of_mem _ h2)
        · unfold findsStep at h2
          split at h2
          · exact Or.inr h2
          · simp only [Option.some.injEq, Prod.mk.injEq] at h2
            left; rw [← h2.2]; exact List.mem_cons_self _ _
          · split at h2
            · simp only [Option.some.injEq, Prod.mk.injEq] at h2
              left; rw [← h2.2]; exact List.mem_cons_self _ _
            · exact Or.inr h2
      · intro d' hd' p' hp'
        rcases List.mem_cons.1 hd' with rfl | hd'
        · -- the delimiter of this step
          cases hi : init with
          | none =>
            have : findsStep s k none d' = some (p', d') := by
              unfold findsStep; rw [hp']
            rw [hi] at h4
            exact h4 p' d' this
          | some qe =>
            obtain ⟨q, e'⟩ := qe
            by_cases hlt : p' < q
            · have : findsStep s k (some (q, e')) d' = some (p', d') := by
                unfold findsStep; rw [hp']; simp [hlt]
              rw [hi] at h4
              exact h4 p' d' this
            · have : findsStep s k (some (q, e')) d' = some (q, e') := by
                unfold findsStep; rw [hp']; simp [hlt]
              rw [hi] at h4
              have := h4 q e' this
              omega
        · exact h3 d' hd' p' hp'
      · intro p0 d0 h0
        subst h0
        cases he : findFrom s e k with
        | none =>
          have : findsStep s k (some (p0, d0)) e = some (p0, d0) := by
            unfold findsStep; rw [he]
          exact h4 p0 d0 this
        | some pe =>
          by_cases hlt : pe < p0
          · have : findsStep s k (some (p0, d0)) e = some (pe, e) := by
              unfold findsStep; rw [he]; simp [hlt]
            have := h4 pe e this
            omega
          · have : findsStep s k (some (p0, d0)) e = some (p0, d0) := by
              unfold findsStep; rw [he]; simp [hlt]
            exact h4 p0 d0 this

/-! The one-marker cases of `betweens` -/

/-- C16: `betweens` with one marker. For every text `s` and marker `m` that
is not empty, `betweens(s, m, "")` (the start marker only) is `split(s, m)`
without its final segment, `betweens(s, "", m)` (the end marker only) is
`split(s, m)` without its leading segment, and `betweens(s, "", "")` is the
one-element sequence of `s`. Both one-marker results have one element for
every occurrence of `m` in `s`. -/
theorem C16_betweens_one_marker (s m : Str) (hm : m ≠ []) :
    StringUtil.betweens s m [] = (StringUtil.split s m).dropLast
    ∧ StringUtil.betweens s [] m = (StringUtil.split s m).drop 1
    ∧ StringUtil.betweens s [] [] = [s]
    ∧ (StringUtil.betweens s m []).length = countOcc s m
    ∧ (StringUtil.betweens s [] m).length = countOcc s m := by
  have h1 : StringUtil.betweens s m [] = (StringUtil.split s m).dropLast := by
    simp [StringUtil.betweens, WeakString.betweens, StringUtil.split, hm]
  have h2 : StringUtil.betweens s [] m = (StringUtil.split s m).drop 1 := by
    simp [StringUtil.betweens, WeakString.betweens, StringUtil.split, hm]
  have hl : (StringUtil.split s m).length = countOcc s m + 1 := by
    simp only [StringUtil.split, WeakString.split, countOcc]
    exact splitAux_length m s 0 []
  refine ⟨h1, h2, by simp [StringUtil.betweens, WeakString.betweens], ?_, ?_⟩
  · rw [h1, List.length_dropLast, hl]; rfl
  · rw [h2, List.length_drop, hl]; rfl

/-- The claim C16 on the text `a,b,c` and the marker `,`. -/
theorem C16_betweens_one_marker_witness :
    StringUtil.betweens "a,b,c".toList [','] [] = ["a".toList, "b".toList]
    ∧ StringUtil.betweens "a,b,c".toList [] [','] = ["b".toList, "c".toList] :=
  let h := C16_betweens_one_marker "a,b,c".toList [','] (by decide)
  ⟨h.1.trans (by decide), h.2.1.trans (by decide)⟩

/-! The text of a travel -/

theorem numberFormat_chars (v : ℚ) (p : Int) :
    ∀ c ∈ numberFormat v p, c = '-' ∨ c = ',' ∨ c = '.' ∨ c.isDigit = true := by
  have hstr : ∀ (b : Bool) (n : Nat), ∀ c ∈ (if b = true then '-' :: naturalString n
      else naturalString n), c = '-' ∨ c = ',' ∨ c = '.' ∨ c.isDigit = true := by
    intro b n c hc
    have hn : ∀ c ∈ naturalString n, c = '-' ∨ c = ',' ∨ c = '.' ∨ c.isDigit = true := by
      intro c hc
      rcases naturalString_chars n c hc with h | h
      · exact Or.inr (Or.inl h)
      · exact Or.inr (Or.inr (Or.inr h))
    split at hc
    · rcases List.mem_cons.1 hc with h | h
      · exact Or.inl h
      · exact hn c h
    · exact hn c hc
  intro c hc
  simp only [numberFormat] at hc
  split at hc
  · rcases List.mem_append.1 hc with h | h
    · exact hstr _ _ c h
    · rcases List.mem_cons.1 h with h | h
      · exact Or.inr (Or.inr (Or.inl h))
      · rcases List.mem_append.1 h with h | h
        · rw [(List.mem_replicate.1 h).2]
          exact Or.inr (Or.inr (Or.inr rfl))
        · exact Or.inr (Or.inr (Or.inr (natToString_isDigit _ c h)))
  · exact hstr _ _ c hc

theorem foldl_append_lines {Point : Type} (g : Point → Str) : ∀ (l : List Point) (init : Str),
    l.foldl (fun str p => str ++ g p) init = init ++ (l.map g).flatten := by
  intro l
  induction l with
  | nil => intro init; simp
  | cons x l ih => intro init; simp [ih]

theorem firstLine_append (A rest : Str) (h : '\n' ∉ A) :
    firstLine (A ++ '\n' :: rest) = A := by
  unfold firstLine
  rw [List.takeWhile_append_of_pos]
  · simp [List.takeWhile]
  · intro c hc
    simp only [ne_eq, decide_not, Bool.not_eq_true', decide_eq_false_iff_not]
    intro hcn; rw [hcn] at hc; exact h hc

/-! The claims on trim, split, finds and the travel -/

/-- C17: `trim` is idempotent. For every text `s` and every list `D` of
delimiters, trimming the trimmed text changes nothing; and the result is the
empty text exactly when `s` is made up only of delimiter characters. -/
theorem C17_trim_idempotent (s : Str) (D : List Str) :
    StringUtil.trim (StringUtil.trim s D) D = StringUtil.trim s D
    ∧ (StringUtil.trim s D = [] ↔ ∀ c ∈ s, isDelim D c = true) := by
  constructor
  · rw [trim_eq_rdropWhile (StringUtil.trim s D) D, dropWhile_trim, trim_eq_rdropWhile s D,
      List.rdropWhile_idempotent]
  · rw [trim_eq_rdropWhile, List.rdropWhile_eq_nil_iff]
    constructor
    · intro h
      have hnil : List.dropWhile (isDelim D) s = [] := by
        by_contra hne
        have h1 := List.head_dropWhile_not (isDelim D) s hne
        have h2 := h _ (List.head_mem hne)
        rw [h1] at h2
        exact Bool.noConfusion h2
      exact List.dropWhile_eq_nil_iff.1 hnil
    · intro h x hx
      rw [List.dropWhile_eq_nil_iff.2 h] at hx
      simp at hx

/-- C18: split and join. For every text `s` and delimiter `d` that is not
empty, joining `split(s, d)` with `d` gives `s` back; empty segments are kept,
so the number of segments is one more than the number of occurrences of `d`
found left to right without overlap. -/
theorem C18_split_join (s d : Str) (hd : d ≠ []) :
    d.intercalate (StringUtil.split s d) = s
    ∧ (StringUtil.split s d).length = countOcc s d + 1 := by
  have _ := hd
  constructor
  · have := splitAux_join d s.length s (le_refl _) []
    simpa [StringUtil.split, WeakString.split] using this
  · exact splitAux_length d s 0 []

/-- The claim C18 on the text `a,b,,c,` with the delimiter `,` and on the text
`aaa` with the delimiter `aa`. -/
theorem C18_split_join_witness :
    StringUtil.split "a,b,,c,".toList [','] = ["a".toList, "b".toList, [], "c".toList, []]
    ∧ [','].intercalate (StringUtil.split "a,b,,c,".toList [',']) = "a,b,,c,".toList
    ∧ "aa".toList.intercalate (StringUtil.split "aaa".toList "aa".toList) = "aaa".toList
    ∧ (StringUtil.split "aaa".toList "aa".toList).length = 2 :=
  ⟨by decide, (C18_split_join "a,b,,c,".toList [','] (by decide)).1,
    (C18_split_join "aaa".toList "aa".toList (by decide)).1,
    (C18_split_join "aaa".toList "aa".toList (by decide)).2.trans (by decide)⟩

/-- C19: `finds`. For every text, list of delimiters and start index: if no
delimiter occurs at or after the start index, the result is `npos` paired with
the empty text; and if some delimiter does, the result is a position `p` and a
delimiter of the list whose first occurrence at or after the start index is at
`p`, where `p` is the least of these first occurrences. -/
theorem C19_finds (s : Str) (D : List Str) (k : Nat) :
    ((∀ d ∈ D, findFrom s d k = none) → StringUtil.finds s D k = (npos, []))
    ∧ (∀ d0 ∈ D, ∀ p0, findFrom s d0 k = some p0 →
        ∃ p d, StringUtil.finds s D k = (p, d) ∧ d ∈ D ∧ findFrom s d k = some p
          ∧ p ≤ p0 ∧ ∀ d' ∈ D, ∀ p', findFrom s d' k = some p' → p ≤ p') := by
  obtain ⟨h1, h2⟩ := finds_fold s k D none (by intro p0 d0 h; exact absurd h (by simp))
  constructor
  · intro hno
    cases hf : List.foldl (findsStep s k) none D with
    | none => simp [StringUtil.finds, WeakString.finds, hf]
    | some pd =>
      obtain ⟨p, d⟩ := pd
      obtain ⟨ha, hb, _, _⟩ := h2 p d hf
      rcases hb with hb | hb
      · rw [hno d hb] at ha; exact absurd ha (by simp)
      · exact absurd hb (by simp)
  · intro d0 hd0 p0 hp0
    cases hf : List.foldl (findsStep s k) none D with
    | none =>
      have := (h1 hf).2 d0 hd0
      rw [this] at hp0; exact absurd hp0 (by simp)
    | some pd =>
      obtain ⟨p, d⟩ := pd
      obtain ⟨ha, hb, hc, _⟩ := h2 p d hf
      refine ⟨p, d, by simp [StringUtil.finds, WeakString.finds, hf], ?_, ha,
        hc d0 hd0 p0 hp0, hc⟩
      rcases hb with hb | hb
      · exact hb
      · exact absurd hb (by simp)

/-- The claim C19 on the text `abcdef`: from index `1` the delimiters `ef`,
`cd`, `zz` give `cd` at position `2`, and the delimiter `zz` alone gives
`npos` with the empty text. -/
theorem C19_finds_witness :
    StringUtil.finds "abcdef".toList ["ef".toList, "cd".toList, "zz".toList] 1
      = (2, "cd".toList)
    ∧ StringUtil.finds "abcdef".toList ["zz".toList] 0 = (npos, []) :=
  ⟨by decide, (C19_finds "abcdef".toList ["zz".toList] 0).1 (by decide)⟩

/-- C20, as amended: the header of the text of a travel. For every travel,
the first line of `toString()` is `Distance: `, then
`numberFormat(calcDistance())` with the default precision `2`, then ` km`; a
newline ends it. -/
theorem C20_travel_header {Point : Type} (pointDistance : Point → Point → ℚ)
    (pointToString : Point → Str) (t : Tsp.Travel Point) :
    firstLine (t.toString pointDistance pointToString)
      = "Distance: ".toList ++ numberFormat (t.calcDistance pointDistance) 2 ++ " km".toList
    ∧ ∃ rest : Str, t.toString pointDistance pointToString
      = "Distance: ".toList ++ numberFormat (t.calcDistance pointDistance) 2 ++ " km".toList
        ++ '\n' :: rest := by
  have hform : ∃ rest : Str, t.toString pointDistance pointToString
      = "Distance: ".toList ++ numberFormat (t.calcDistance pointDistance) 2 ++ " km".toList
        ++ '\n' :: rest := by
    refine ⟨"uid\tlongitude\tlatitude\n".toList
      ++ (t.points.map (fun p => pointToString p ++ "\n".toList)).flatten, ?_⟩
    simp only [Tsp.Travel.toString]
    rw [foldl_append_lines]
    have e : " km\n".toList = " km".toList ++ ['\n'] := by decide
    rw [e]
    simp only [List.append_assoc, List.singleton_append, List.cons_append, List.nil_append]
  refine ⟨?_, hform⟩
  obtain ⟨rest, hrest⟩ := hform
  rw [hrest]
  apply firstLine_append
  intro h
  rcases List.mem_append.1 h with h | h
  · rcases List.mem_append.1 h with h | h
    · revert h; decide
    · rcases numberFormat_chars _ _ _ h with h | h | h | h <;> (revert h; decide)
  · revert h; decide

/-- C20 as stated fails on the travel without points: the first line of its
text is `Distance: 0 km`, with ` km` between the formatted number and the
newline. -/
theorem C20_counterexample :
    firstLine (Tsp.Travel.toString (fun (_ _ : Unit) => (0 : ℚ)) (fun _ => [])
        ⟨[], (INT_MIN : ℚ)⟩)
      = "Distance: 0 km".toList
    ∧ firstLine (Tsp.Travel.toString (fun (_ _ : Unit) => (0 : ℚ)) (fun _ => [])
        ⟨[], (INT_MIN : ℚ)⟩)
      ≠ "Distance: ".toList
        ++ numberFormat (Tsp.Travel.calcDistance (fun (_ _ : Unit) => (0 : ℚ))
            ⟨[], (INT_MIN : ℚ)⟩) 2 := by
  decide!

/-! The SQL text literal is lossless -/

theorem sqlEscape_cons (c : Char) (s : Str) :
    sqlEscape (c :: s) = (if c = QUOTE then [QUOTE, QUOTE] else [c]) ++ sqlEscape s := by
  simp [sqlEscape]

theorem quoteRunsAux_sqlEscape : ∀ (s : Str) (k : Nat), k % 2 = 0 →
    ∀ n ∈ quoteRunsAux k (sqlEscape s), n % 2 = 0 := by
  intro s
  induction s with
  | nil =>
    intro k hk n hn
    simp only [sqlEscape, List.map_nil, List.flatten_nil, quoteRunsAux] at hn
    split at hn
    · simp at hn
    · simp only [List.mem_singleton] at hn
      rw [hn]; exact hk
  | cons c s ih =>
    intro k hk n hn
    rw [sqlEscape_cons] at hn
    by_cases hc : c = QUOTE
    · simp only [hc, if_true, List.cons_append, List.nil_append, quoteRunsAux] at hn
      exact ih (k + 1 + 1) (by omega) n hn
    · simp only [hc, if_false, List.cons_append, List.nil_append, quoteRunsAux,
        List.mem_append] at hn
      rcases hn with hn | hn
      · split at hn
        · simp at hn
        · simp only [List.mem_singleton] at hn
          rw [hn]; exact hk
      · exact ih 0 rfl n hn

theorem replaceAllAux_unescape : ∀ (s : Str),
    replaceAllAux [QUOTE, QUOTE] [QUOTE] 0 (sqlEscape s) = s := by
  intro s
  induction s with
  | nil => rfl
  | cons c s ih =>
    rw [sqlEscape_cons]
    by_cases hc : c = QUOTE
    · simp only [hc, if_true]
      rw [replaceAllAux_match [QUOTE, QUOTE] [QUOTE] (sqlEscape s) (by simp), ih]
      rfl
    · simp only [hc, if_false, List.cons_append, List.nil_append]
      rw [replaceAllAux]
      have hp : List.isPrefixOf [QUOTE, QUOTE] (c :: sqlEscape s) = false := by
        have : ¬ (QUOTE = c) := fun e => hc e.symm
        simp [List.isPrefixOf, this]
      simp [hp, ih]

theorem sqlInner_quoted (x : Str) : sqlInner (QUOTE :: x ++ [QUOTE]) = x := by
  simp [sqlInner]

theorem toSQLText_injective (u v : Str) (h : toSQLText u = toSQLText v) : u = v := by
  by_cases hu : u = []
  · by_cases hv : v = []
    · rw [hu, hv]
    · rw [hu, toSQLText_eq v hv] at h
      simp only [toSQLText, if_true] at h
      exact absurd (List.head_eq_of_cons_eq h) (by decide)
  · by_cases hv : v = []
    · rw [hv, toSQLText_eq u hu] at h
      simp only [toSQLText, if_true] at h
      exact absurd (List.head_eq_of_cons_eq h).symm (by decide)
    · rw [toSQLText_eq u hu, toSQLText_eq v hv] at h
      have h1 : sqlEscape u = sqlEscape v := by
        have := congrArg sqlInner h
        rwa [sqlInner_quoted, sqlInner_quoted] at this
      have := congrArg (replaceAllAux [QUOTE, QUOTE] [QUOTE] 0) h1
      rwa [replaceAllAux_unescape, replaceAllAux_unescape] at this

/-- C21: the SQL literal of a text is lossless and has no unpaired quote. For
every text `s` that is not empty, `toSQL(s)` is a single quote, an inner text
and a single quote; every maximal run of single quotes of the inner text has
an even length, and replacing each doubled quote of the inner text by one
quote gives `s`. `toSQL` is injective on texts, the empty text is the only one
with the literal `NULL`, and the text `NULL` has the literal `'NULL'`. -/
theorem C21_toSQL_lossless (s : Str) (hs : s ≠ []) :
    toSQL (.str s) = QUOTE :: sqlInner (toSQL (.str s)) ++ [QUOTE]
    ∧ (∀ n ∈ quoteRuns (sqlInner (toSQL (.str s))), n % 2 = 0)
    ∧ StringUtil.replaceAll (sqlInner (toSQL (.str s))) [QUOTE, QUOTE] [QUOTE] = s
    ∧ (∀ u v : Str, toSQL (.str u) = toSQL (.str v) → u = v)
    ∧ (∀ u : Str, toSQL (.str u) = "NULL".toList ↔ u = [])
    ∧ toSQL (.str "NULL".toList) = "'NULL'".toList := by
  have hq : toSQL (.str s) = QUOTE :: sqlEscape s ++ [QUOTE] := toSQLText_eq s hs
  have hi : sqlInner (toSQL (.str s)) = sqlEscape s := by rw [hq, sqlInner_quoted]
  refine ⟨?_, ?_, ?_, ?_, ?_, by decide⟩
  · rw [hi, hq]
  · rw [hi]
    exact quoteRunsAux_sqlEscape s 0 rfl
  · rw [hi]
    exact replaceAllAux_unescape s
  · intro u v h
    exact toSQLText_injective u v h
  · intro u
    constructor
    · intro h
      exact toSQLText_injective u [] h
    · intro h
      rw [h]; rfl

/-- The claim C21 on the text `it's`, whose literal is `'it''s'`. -/
theorem C21_toSQL_lossless_witness :
    toSQL (.str "it's".toList) = "'it''s'".toList
    ∧ quoteRuns (sqlInner (toSQL (.str "it's".toList))) = [2]
    ∧ StringUtil.replaceAll (sqlInner (toSQL (.str "it's".toList))) [QUOTE, QUOTE] [QUOTE]
      = "it's".toList :=
  ⟨by decide, by decide,
    (C21_toSQL_lossless "it's".toList (by decide)).2.2.1⟩

/-! Sequential substitution -/

/-- C22: substitution is sequential. A call with several values is the round
of the first value followed by the call with the remaining values on the text
of that round, for `substitute` and for `substituteSQL`. On the format
`{0}-{1}` with the values `{1}` and `x` the first round gives `{1}-{1}` and
the result is `x-x`; on the format `{0}|{1}` with the same values
`substituteSQL` gives `'{1}'|{1}` after the first round and `''x''|'x'` as the
result, the second literal standing inside the quotes of the first. -/
theorem C22_substitute_sequential :
    (∀ (format : Str) (val a : Value) (args : List Value),
      substitute format val (a :: args)
        = (_substitute format val).bind (fun res => substitute res a args))
    ∧ (∀ (format : Str) (val a : Value) (args : List Value),
      substituteSQL format val (a :: args)
        = (_substituteSQL format val).bind (fun res => substituteSQL res a args))
    ∧ _substitute "\x7b0\x7d-\x7b1\x7d".toList (.cstr "\x7b1\x7d".toList)
        = some "\x7b1\x7d-\x7b1\x7d".toList
    ∧ substitute "\x7b0\x7d-\x7b1\x7d".toList (.cstr "\x7b1\x7d".toList) [.cstr "x".toList]
        = some "x-x".toList
    ∧ _substituteSQL "\x7b0\x7d|\x7b1\x7d".toList (.cstr "\x7b1\x7d".toList)
        = some "'\x7b1\x7d'|\x7b1\x7d".toList
    ∧ substituteSQL "\x7b0\x7d|\x7b1\x7d".toList (.cstr "\x7b1\x7d".toList) [.cstr "x".toList]
        = some "''x''|'x'".toList := by
  refine ⟨?_, ?_, by decide, by decide, by decide, by decide⟩
  · intro format val a args
    rw [substitute]
    cases _substitute format val <;> rfl
  · intro format val a args
    rw [substituteSQL]
    cases _substituteSQL format val <;> rfl

/-! The HTML spaces -/

theorem replaceAllAux_starts (a : Char) (b : Str) : ∀ (w s : Str), a ∉ w →
    w <+: replaceAllAux b [a] 0 s → w <+: s := by
  intro w
  induction w with
  | nil => intro s _ _; exact List.nil_prefix
  | cons x w ih =>
    intro s ha h
    simp only [List.mem_cons, not_or] at ha
    cases s with
    | nil => simp [replaceAllAux] at h
    | cons c cs =>
      rw [replaceAllAux] at h
      by_cases hm : b ≠ [] ∧ b.isPrefixOf (c :: cs) = true
      · rw [if_pos hm] at h
        simp only [List.singleton_append, List.cons_prefix_cons] at h
        exact absurd h.1.symm ha.1
      · rw [if_neg hm] at h
        simp only [List.cons_prefix_cons] at h ⊢
        exact ⟨h.1, ih cs ha.2 h.2⟩

theorem replaceAllAux_occurs (a : Char) (b w : Str) (ha : a ∉ w) (hw : w ≠ []) :
    ∀ (s : Str) (skip : Nat), w <:+: replaceAllAux b [a] skip s → w <:+: s := by
  intro s
  induction s with
  | nil =>
    intro skip h
    simp only [replaceAllAux, List.infix_nil] at h
    exact absurd h hw
  | cons c cs ih =>
    intro skip h
    cases skip with
    | succ k =>
      rw [replaceAllAux] at h
      exact List.infix_cons (ih k h)
    | zero =>
      by_cases hm : b ≠ [] ∧ b.isPrefixOf (c :: cs) = true
      · rw [replaceAllAux, if_pos hm, List.singleton_append, List.infix_cons_iff] at h
        rcases h with h | h
        · obtain ⟨x, w', rfl⟩ := List.exists_cons_of_ne_nil hw
          simp only [List.cons_prefix_cons] at h
          simp only [List.mem_cons, not_or] at ha
          exact absurd h.1.symm ha.1
        · exact List.infix_cons (ih _ h)
      · have h0 := h
        rw [replaceAllAux, if_neg hm, List.infix_cons_iff] at h
        rcases h with h | h
        · have hp : w <+: replaceAllAux b [a] 0 (c :: cs) := by
            rw [replaceAllAux, if_neg hm]; exact h
          exact (replaceAllAux_starts a b w (c :: cs) ha hp).isInfix
        · exact List.infix_cons (ih _ h)

theorem replaceAllAux_absent (a : Char) (b : Str) (ha : a ∉ b) (hb : b ≠ []) :
    ∀ (s : Str) (skip : Nat), ¬ b <:+: replaceAllAux b [a] skip s := by
  intro s
  induction s with
  | nil =>
    intro skip h
    simp only [replaceAllAux, List.infix_nil] at h
    exact hb h
  | cons c cs ih =>
    intro skip h
    cases skip with
    | succ k =>
      rw [replaceAllAux] at h
      exact ih k h
    | zero =>
      by_cases hm : b ≠ [] ∧ b.isPrefixOf (c :: cs) = true
      · rw [replaceAllAux, if_pos hm, List.singleton_append, List.infix_cons_iff] at h
        rcases h with h | h
        · obtain ⟨x, b', rfl⟩ := List.exists_cons_of_ne_nil hb
          simp only [List.cons_prefix_cons] at h
          simp only [List.mem_cons, not_or] at ha
          exact absurd h.1.symm ha.1
        · exact ih _ h
      · have h0 := h
        rw [replaceAllAux, if_neg hm, List.infix_cons_iff] at h
        rcases h with h | h
        · have hp : b <+: replaceAllAux b [a] 0 (c :: cs) := by
            rw [replaceAllAux, if_neg hm]; exact h
          have hp2 := replaceAllAux_starts a b b (c :: cs) ha hp
          exact hm ⟨hb, List.isPrefixOf_iff_prefix.2 hp2⟩
        · exact ih _ h

theorem replaceAllAux_length_le (b a : Str) (hb : b ≠ []) (hab : a.length ≤ b.length) :
    ∀ (s : Str) (skip : Nat), (replaceAllAux b a skip s).length ≤ s.length - skip := by
  intro s
  induction s with
  | nil => intro skip; simp [replaceAllAux]
  | cons c cs ih =>
    intro skip
    cases skip with
    | succ k =>
      rw [replaceAllAux]
      have := ih k
      simp only [List.length_cons]
      omega
    | zero =>
      rw [replaceAllAux]
      by_cases hm : b ≠ [] ∧ b.isPrefixOf (c :: cs) = true
      · rw [if_pos hm]
        have h1 := ih (b.length - 1)
        have h2 : b.length ≤ (c :: cs).length :=
          (List.isPrefixOf_iff_prefix.1 hm.2).length_le
        have h3 : 0 < b.length := List.length_pos.2 hb
        simp only [List.length_append, List.length_cons] at h2 ⊢
        omega
      · rw [if_neg hm]
        have := ih 0
        simp only [List.length_cons]
        omega

theorem replaceAll_length_le (s b a : Str) (hb : b ≠ []) (hab : a.length ≤ b.length) :
    (WeakString.replaceAll s b a).length ≤ s.length := by
  have := replaceAllAux_length_le b a hb hab s 0
  simpa [WeakString.replaceAll] using this

theorem not_mem_of_no_segment (c : Char) (s : Str) (h : ¬ [c] <:+: s) : c ∉ s := by
  intro hc
  obtain ⟨l, r, rfl⟩ := List.append_of_mem hc
  exact h ⟨l, r, by simp⟩

theorem removeHTMLSpaces_eq (s : Str) :
    removeHTMLSpaces s
      = WeakString.replaceAll
          (WeakString.replaceAll
            (WeakString.replaceAll s "&nbsp;".toList " ".toList) "\t".toList " ".toList)
          "  ".toList " ".toList := rfl

theorem replaceAllAux_nbsp : ∀ (s : Str),
    replaceAllAux "&nbsp;".toList " ".toList 0 s = nbspToSpace s := by
  intro s
  induction s using nbspToSpace.induct with
  | case1 rest ih =>
    have h := replaceAllAux_match "&nbsp;".toList " ".toList rest (by decide)
    rw [ih] at h
    rw [nbspToSpace.eq_1]
    exact h
  | case2 c rest hc ih =>
    have hm : ¬ ("&nbsp;".toList ≠ [] ∧ "&nbsp;".toList.isPrefixOf (c :: rest) = true) := by
      intro h
      obtain ⟨t, ht⟩ := List.isPrefixOf_iff_prefix.1 h.2
      have e : '&' :: 'n' :: 'b' :: 's' :: 'p' :: ';' :: t = c :: rest := ht
      injection e with e1 e2
      exact hc t e1.symm e2.symm
    rw [replaceAllAux, if_neg hm, ih, nbspToSpace.eq_2 c rest hc]
  | case3 => rfl

theorem replaceAllAux_tab : ∀ (s : Str),
    replaceAllAux "\t".toList " ".toList 0 s = tabToSpace s := by
  intro s
  induction s with
  | nil => rfl
  | cons c s ih =>
    by_cases hc : c = '\t'
    · have h := replaceAllAux_match "\t".toList " ".toList s (by decide)
      rw [ih] at h
      rw [hc]
      exact h
    · have hm : ¬ ("\t".toList ≠ [] ∧ "\t".toList.isPrefixOf (c :: s) = true) := by
        intro h
        obtain ⟨t, ht⟩ := List.isPrefixOf_iff_prefix.1 h.2
        have e : '\t' :: t = c :: s := ht
        injection e with e1 _
        exact hc e1.symm
      rw [replaceAllAux, if_neg hm, ih]
      simp [tabToSpace, hc]

theorem replaceAllAux_squeeze : ∀ (s : Str),
    replaceAllAux "  ".toList " ".toList 0 s = squeezeSpaces s := by
  intro s
  induction s using squeezeSpaces.induct with
  | case1 rest ih =>
    have h := replaceAllAux_match "  ".toList " ".toList rest (by decide)
    rw [ih] at h
    rw [squeezeSpaces.eq_1]
    exact h
  | case2 c rest hc ih =>
    have hm : ¬ ("  ".toList ≠ [] ∧ "  ".toList.isPrefixOf (c :: rest) = true) := by
      intro h
      obtain ⟨t, ht⟩ := List.isPrefixOf_iff_prefix.1 h.2
      have e : ' ' :: ' ' :: t = c :: rest := ht
      injection e with e1 e2
      exact hc t e1.symm e2.symm
    rw [replaceAllAux, if_neg hm, ih, squeezeSpaces.eq_2 c rest hc]
  | case3 => rfl

theorem nbspToSpace_clean : ∀ (s : Str), ¬ "&nbsp;".toList <:+: s → nbspToSpace s = s := by
  intro s
  induction s using nbspToSpace.induct with
  | case1 rest _ =>
    intro h
    exact absurd ⟨[], rest, rfl⟩ h
  | case2 c rest hc ih =>
    intro h
    rw [nbspToSpace.eq_2 c rest hc, ih (fun h2 => h (List.infix_cons h2))]
  | case3 => intro _; rfl

theorem tabToSpace_clean : ∀ (s : Str), '\t' ∉ s → tabToSpace s = s := by
  intro s
  induction s with
  | nil => intro _; rfl
  | cons c s ih =>
    intro h
    simp only [List.mem_cons, not_or] at h
    have hc : ¬ c = '\t' := fun e => h.1 e.symm
    have := ih h.2
    simp only [tabToSpace] at this
    simp [tabToSpace, hc, this]

theorem squeezeSpaces_clean : ∀ (s : Str), ¬ "  ".toList <:+: s → squeezeSpaces s = s := by
  intro s
  induction s using squeezeSpaces.induct with
  | case1 rest _ =>
    intro h
    exact absurd ⟨[], rest, rfl⟩ h
  | case2 c rest hc ih =>
    intro h
    rw [squeezeSpaces.eq_2 c rest hc, ih (fun h2 => h (List.infix_cons h2))]
  | case3 => intro _; rfl

/-- C23: `removeHTMLSpaces` replaces all the HTML spaces. For every text `s`
the result is `s` after the three passes in their order: every `&nbsp;`
becomes one space, then every tab becomes one space, then every two adjacent
spaces become one space, each pass read from left to right on the result of
the pass before. The result has no occurrence of `&nbsp;` (`find` has no
position for it, and it is no infix) and no tab character, it is not longer
than `s`, and a text without `&nbsp;`, tab and two adjacent spaces is returned
as it is. So `a&nbsp;b`, tab, `c`, two spaces, `d` gives `a b c d`. -/
theorem C23_removeHTMLSpaces (s : Str) :
    removeHTMLSpaces s = squeezeSpaces (tabToSpace (nbspToSpace s))
    ∧ WeakString.find (removeHTMLSpaces s) "&nbsp;".toList = none
    ∧ ¬ "&nbsp;".toList <:+: removeHTMLSpaces s
    ∧ '\t' ∉ removeHTMLSpaces s
    ∧ (removeHTMLSpaces s).length ≤ s.length
    ∧ (¬ "&nbsp;".toList <:+: s → '\t' ∉ s → ¬ "  ".toList <:+: s → removeHTMLSpaces s = s)
    ∧ removeHTMLSpaces "a&nbsp;b\tc  d".toList = "a b c d".toList
    ∧ removeHTMLSpaces "&nbsp;&nbsp;\t\t".toList = "  ".toList := by
  have hspec : removeHTMLSpaces s = squeezeSpaces (tabToSpace (nbspToSpace s)) := by
    rw [removeHTMLSpaces_eq]
    simp only [WeakString.replaceAll]
    rw [replaceAllAux_nbsp, replaceAllAux_tab, replaceAllAux_squeeze]
  have hnb : ¬ "&nbsp;".toList <:+: removeHTMLSpaces s := by
    rw [removeHTMLSpaces_eq]
    intro h
    have h3 := replaceAllAux_occurs ' ' "  ".toList "&nbsp;".toList (by decide) (by decide) _ 0 h
    have h2 := replaceAllAux_occurs ' ' "\t".toList "&nbsp;".toList (by decide) (by decide) _ 0 h3
    exact replaceAllAux_absent ' ' "&nbsp;".toList (by decide) (by decide) s 0 h2
  refine ⟨hspec, ?_, hnb, ?_, ?_, ?_, by decide, by decide⟩
  · apply find_eq_none_of_absent
    intro k _ hp
    exact hnb (hp.isInfix.trans (List.drop_suffix k _).isInfix)
  · rw [removeHTMLSpaces_eq]
    apply not_mem_of_no_segment
    intro h
    have h3 := replaceAllAux_occurs ' ' "  ".toList "\t".toList (by decide) (by decide) _ 0 h
    exact replaceAllAux_absent ' ' "\t".toList (by decide) (by decide) _ 0 h3
  · rw [removeHTMLSpaces_eq]
    have h1 := replaceAll_length_le s "&nbsp;".toList " ".toList (by decide) (by decide)
    have h2 := replaceAll_length_le (WeakString.replaceAll s "&nbsp;".toList " ".toList)
      "\t".toList " ".toList (by decide) (by decide)
    have h3 := replaceAll_length_le
      (WeakString.replaceAll (WeakString.replaceAll s "&nbsp;".toList " ".toList)
        "\t".toList " ".toList)
      "  ".toList " ".toList (by decide) (by decide)
    omega
  · intro h1 h2 h3
    rw [hspec, nbspToSpace_clean s h1, tabToSpace_clean s h2, squeezeSpaces_clean s h3]

/-! Tabs in front of the lines -/

theorem tab_loop (n : Nat) :
    (List.range n).foldl (fun (tab : Str) _ => tab ++ "\t".toList) [] = List.replicate n '\t' := by
  induction n with
  | zero => rfl
  | succ n ih =>
    rw [List.range_succ, List.foldl_append, ih, List.replicate_succ']
    rfl

theorem range_map_getD (h : Nat → Str → Str) (L : List Str) :
    (List.range L.length).map (fun i => h i (L.getD i [])) = L.enum.map (fun p => h p.1 p.2) := by
  apply List.ext_getElem
  · simp
  · intro i h1 h2
    have hi : i < L.length := by simpa using h1
    simp [hi]

theorem enumFrom_lines (tab nl : Str) : ∀ (L : List Str) (k : Nat), L ≠ [] →
    ((L.enumFrom k).map
      (fun p => tab ++ p.2 ++ (if p.1 = k + L.length - 1 then [] else nl))).flatten
      = nl.intercalate (L.map (fun l => tab ++ l)) := by
  intro L
  induction L with
  | nil => intro k h; exact absurd rfl h
  | cons x L ih =>
    intro k _
    cases L with
    | nil => simp [List.intercalate]
    | cons y L =>
      have h1 := ih (k + 1) (by simp)
      have e : k + 1 + (y :: L).length - 1 = k + (x :: y :: L).length - 1 := by
        simp only [List.length_cons]; omega
      rw [e] at h1
      rw [List.enumFrom_cons, List.map_cons, List.flatten_cons, h1]
      have h2 := intercalate_cons_of_ne_nil nl (tab ++ x)
        ((y :: L).map (fun l => tab ++ l)) (by simp)
      have hk : ¬ (k = k + (x :: y :: L).length - 1) := by
        simp only [List.length_cons]; omega
      simp only [List.map_cons] at h2 ⊢
      rw [h2]
      simp [hk]

theorem countOccAux_le (d : Str) : ∀ (cs : Str) (skip : Nat),
    countOccAux d skip cs ≤ cs.length := by
  intro cs
  induction cs with
  | nil => intro skip; simp [countOccAux]
  | cons c cs ih =>
    intro skip
    cases skip with
    | succ k =>
      rw [countOccAux]
      have := ih k
      simp only [List.length_cons]; omega
    | zero =>
      rw [countOccAux]
      split
      · have := ih (d.length - 1)
        simp only [List.length_cons]; omega
      · have := ih 0
        simp only [List.length_cons]; omega

theorem split_length_le (s d : Str) : (StringUtil.split s d).length ≤ s.length + 1 := by
  simp only [StringUtil.split, WeakString.split, splitAux_length]
  have := countOccAux_le d s 0
  omega

theorem size_t_of_lt (n : Nat) (h : n < SIZE_MOD) : size_t (n : Int) = n := by
  simp only [size_t]
  rw [Int.emod_eq_of_lt (Int.natCast_nonneg n) (by exact_mod_cast h)]
  simp

theorem addTab_of_lines (s : Str) (n : Nat)
    (h : (StringUtil.split s "\n".toList).length ≤ SIZE_MOD) :
    addTab s n = "\n".toList.intercalate
      ((StringUtil.split s "\n".toList).map (fun l => List.replicate n '\t' ++ l)) := by
  have hne : StringUtil.split s "\n".toList ≠ [] := splitAux_ne_nil _ _ _ _
  have hpos : 0 < (StringUtil.split s "\n".toList).length := List.length_pos.2 hne
  have hlast : size_t (((StringUtil.split s "\n".toList).length : Int) - 1)
      = 0 + (StringUtil.split s "\n".toList).length - 1 := by
    have e : (((StringUtil.split s "\n".toList).length : Int) - 1)
        = (((StringUtil.split s "\n".toList).length - 1 : Nat) : Int) := by omega
    rw [e, size_t_of_lt _ (by omega)]
    omega
  simp only [addTab, tab_loop]
  rw [foldl_append_lines, List.nil_append, hlast,
    range_map_getD (fun i l => List.replicate n '\t' ++ l
      ++ (if i = 0 + (StringUtil.split s "\n".toList).length - 1 then [] else "\n".toList))]
  exact enumFrom_lines (List.replicate n '\t') "\n".toList _ 0 hne

theorem splitAux_single_pass (c : Char) : ∀ (l rest acc : Str), c ∉ l →
    splitAux [c] 0 acc (l ++ rest) = splitAux [c] 0 (l.reverse ++ acc) rest := by
  intro l
  induction l with
  | nil => intro rest acc _; rfl
  | cons x l ih =>
    intro rest acc hx
    simp only [List.mem_cons, not_or] at hx
    have hp : List.isPrefixOf [c] (x :: (l ++ rest)) = false := by
      simp [List.isPrefixOf, hx.1]
    rw [List.cons_append, splitAux]
    simp only [hp, Bool.false_eq_true, and_false, if_false]
    rw [ih rest (x :: acc) hx.2]
    simp

theorem splitAux_single_hit (c : Char) (rest acc : Str) :
    splitAux [c] 0 acc (c :: rest) = acc.reverse :: splitAux [c] 0 [] rest := by
  rw [splitAux]
  simp [List.isPrefixOf]

theorem split_intercalate (c : Char) : ∀ (L : List Str), L ≠ [] → (∀ l ∈ L, c ∉ l) →
    splitAux [c] 0 [] ([c].intercalate L) = L := by
  intro L
  induction L with
  | nil => intro h; exact absurd rfl h
  | cons x L ih =>
    intro _ hc
    have hx : c ∉ x := hc x (List.mem_cons_self _ _)
    cases L with
    | nil =>
      have := splitAux_single_pass c x [] [] hx
      simp only [List.append_nil] at this
      simp [List.intercalate, this, splitAux]
    | cons y L =>
      rw [intercalate_cons_of_ne_nil [c] x (y :: L) (by simp), List.append_assoc,
        splitAux_single_pass c x _ [] hx, List.singleton_append, splitAux_single_hit,
        ih (by simp) (fun l hl => hc l (List.mem_cons_of_mem _ hl))]
      simp

theorem splitAux_single_not_mem (c : Char) : ∀ (s acc : Str), c ∉ acc →
    ∀ l ∈ splitAux [c] 0 acc s, c ∉ l := by
  intro s
  induction s with
  | nil =>
    intro acc ha l hl
    simp only [splitAux, List.mem_singleton] at hl
    rw [hl]; simpa using ha
  | cons x s ih =>
    intro acc ha l hl
    by_cases hx : x = c
    · rw [hx, splitAux_single_hit] at hl
      simp only [List.mem_cons] at hl
      rcases hl with hl | hl
      · rw [hl]; simpa using ha
      · exact ih [] (by simp) l hl
    · have hcx : ¬ c = x := fun e => hx e.symm
      have := splitAux_single_pass c [x] s acc (by simpa using hcx)
      simp only [List.singleton_append, List.reverse_singleton] at this
      rw [this] at hl
      exact ih (x :: acc) (by simp [ha, hcx]) l hl

theorem split_addTab (s : Str) (n : Nat)
    (h : (StringUtil.split s "\n".toList).length ≤ SIZE_MOD) :
    StringUtil.split (addTab s n) "\n".toList
      = (StringUtil.split s "\n".toList).map (fun l => List.replicate n '\t' ++ l) := by
  rw [addTab_of_lines s n h]
  have hne : StringUtil.split s "\n".toList ≠ [] := splitAux_ne_nil _ _ _ _
  apply split_intercalate '\n'
  · simpa using hne
  · intro l hl
    obtain ⟨l0, hl0, rfl⟩ := List.mem_map.1 hl
    have h0 : '\n' ∉ l0 := splitAux_single_not_mem '\n' s [] (by simp) l0 hl0
    simp only [List.mem_append, List.mem_replicate, not_or]
    exact ⟨fun e => absurd e.2 (by decide), h0⟩

/-- C24: `addTab` composes additively and keeps the lines. For every text `s`
(shorter than `2 ^ 64`, as every `std::string`) and counts `m`, `n`:
`addTab(s, 0)` is `s`, `addTab(addTab(s, m), n)` is `addTab(s, m + n)`,
`addTab(s, n)` has as many lines (segments of `split` by the newline) as `s`,
and each of its lines is `n` tab characters followed by the line of `s` at the
same place. -/
theorem C24_addTab (s : Str) (m n : Nat) (hs : s.length < SIZE_MOD) :
    addTab s 0 = s
    ∧ addTab (addTab s m) n = addTab s (m + n)
    ∧ (StringUtil.split (addTab s n) "\n".toList).length
      = (StringUtil.split s "\n".toList).length
    ∧ StringUtil.split (addTab s n) "\n".toList
      = (StringUtil.split s "\n".toList).map (fun line => List.replicate n '\t' ++ line) := by
  have h : (StringUtil.split s "\n".toList).length ≤ SIZE_MOD := by
    have := split_length_le s "\n".toList
    omega
  have h4 := split_addTab s n h
  refine ⟨?_, ?_, ?_, h4⟩
  · rw [addTab_of_lines s 0 h]
    simp only [List.replicate_zero, List.nil_append, List.map_id_fun, id_eq]
    have := splitAux_join "\n".toList s.length s (le_refl _) []
    simpa [StringUtil.split, WeakString.split] using this
  · have hm := split_addTab s m h
    have h2 : (StringUtil.split (addTab s m) "\n".toList).length ≤ SIZE_MOD := by
      rw [hm, List.length_map]; exact h
    rw [addTab_of_lines (addTab s m) n h2, hm, addTab_of_lines s (m + n) h, List.map_map]
    congr 1
    apply List.map_congr_left
    intro l _
    simp only [Function.comp_apply, ← List.append_assoc, List.append_replicate_replicate]
    rw [Nat.add_comm]
  · rw [h4, List.length_map]

/-- The claim C24 on the two-line text `a`, newline, `b` with the counts 1
and 2. -/
theorem C24_addTab_witness :
    addTab "a\nb".toList 0 = "a\nb".toList
    ∧ addTab (addTab "a\nb".toList 1) 2 = "\t\t\ta\n\t\t\tb".toList
    ∧ addTab "a\nb".toList 3 = "\t\t\ta\n\t\t\tb".toList
    ∧ StringUtil.split (addTab "a\nb".toList 2) "\n".toList
      = ["\t\ta".toList, "\t\tb".toList] :=
  let h := C24_addTab "a\nb".toList 1 2 (by decide)
  ⟨h.1, by decide, by decide, h.2.2.2.trans (by decide)⟩

end Samchon
